import Mathlib

/-!
Verification of the exdir plugin-interface core
(`src/exdir/plugin_interface/plugin_interface.py`).

The Python code is shallowly embedded:

* `PluginModule` is the part of a `Plugin` bundle object that plugin units
  and the resolver consult through the `_plugin_module` back-reference:
  its `name` and the four ordering lists.  (The Python back-reference is a
  reference cycle — the `Plugin` holds the unit objects and each unit
  holds the `Plugin`; a pure embedding flattens it to the consulted
  fields.)
* `PluginUnit` is one hook object (a `Dataset`/`Attribute`/… instance)
  together with its `_plugin_module` back-reference; `uid` models Python
  object identity of the hook.
* Python dicts become association lists with insertion-order semantics
  (`alInsert` replaces in place, keeping the original position, exactly
  like `d[k] = v`); Python sets of strings become duplicate-free lists
  built with `setAdd` (only membership and emptiness of these sets are
  ever consumed, so list order is irrelevant to every result).
* The unbounded `while queue:` reachability loop of
  `solve_plugin_order` is embedded with explicit fuel; `none` means the
  Python loop has not terminated within `fuel` iterations (and theorems
  quantifying over all fuels express genuine divergence).
* The `while dependency_map:` topological-sort loop removes at least one
  entry per iteration, so `dependency_map.length` iterations always
  suffice; it is embedded as `kahnAux` with exactly that much fuel.
  A raised `ValueError` becomes `Except.error` carrying the message.
-/

namespace ExdirPlugin

/-- The fields of a Python `Plugin` object consulted through the
`_plugin_module` back-reference: `name`, `write_before`, `write_after`,
`read_before`, `read_after` (`plugin_interface.py`, `Plugin.__init__`). -/
structure PluginModule where
  name : String
  write_before : List String
  write_after : List String
  read_before : List String
  read_after : List String
deriving DecidableEq, Repr, Inhabited

/-- One plugin unit (hook object) as seen by `solve_plugin_order`:
its object identity `uid` and its `_plugin_module` back-reference. -/
structure PluginUnit where
  uid : Nat
  mod : PluginModule
deriving DecidableEq, Repr, Inhabited

/-- The full result of `Plugin.__init__`: the module core plus the five
per-kind unit lists (after the constructor has set the back-references). -/
structure Plugin where
  module : PluginModule
  dataset_plugins : List PluginUnit
  attribute_plugins : List PluginUnit
  file_plugins : List PluginUnit
  group_plugins : List PluginUnit
  raw_plugins : List PluginUnit
deriving DecidableEq, Repr

/-- Embedding of `Plugin.__init__(name, dataset_plugins=None, ...)`.
Each unit-list argument is a list of raw hook objects (modelled by their
identities); each `x or []` default becomes `Option.getD [] `; the
constructor stores the name unvalidated and sets `_plugin_module` on
every contained unit. -/
def Plugin_init (name : String)
    (dataset_plugins attribute_plugins file_plugins group_plugins raw_plugins :
      Option (List Nat))
    (write_before write_after read_before read_after : Option (List String)) :
    Plugin :=
  let m : PluginModule :=
    ⟨name, write_before.getD [], write_after.getD [],
      read_before.getD [], read_after.getD []⟩
  ⟨m,
    (dataset_plugins.getD []).map (fun u => ⟨u, m⟩),
    (attribute_plugins.getD []).map (fun u => ⟨u, m⟩),
    (file_plugins.getD []).map (fun u => ⟨u, m⟩),
    (group_plugins.getD []).map (fun u => ⟨u, m⟩),
    (raw_plugins.getD []).map (fun u => ⟨u, m⟩)⟩

/-- Container class `DatasetData` (`data`, `attrs`, `meta`). -/
structure DatasetData (D A M : Type) where
  data : D
  attrs : A
  meta : M
deriving DecidableEq, Repr

/-- Container class `AttributeData` (`attrs`, `meta`). -/
structure AttributeData (A M : Type) where
  attrs : A
  meta : M
deriving DecidableEq, Repr

/-- Base `Dataset.before_load`: a `pass` body, returns `None`. -/
def Dataset_before_load (dataset_path : String) : Unit := ()

/-- Base `Dataset.prepare_read`: `return dataset_data`. -/
def Dataset_prepare_read {D A M : Type} (dataset_data : DatasetData D A M) :
    DatasetData D A M :=
  dataset_data

/-- Base `Dataset.prepare_write`: `return dataset_data`. -/
def Dataset_prepare_write {D A M : Type} (dataset_data : DatasetData D A M) :
    DatasetData D A M :=
  dataset_data

/-- Base `Attribute.prepare_read`: `return attribute_data`. -/
def Attribute_prepare_read {A M : Type} (attribute_data : AttributeData A M) :
    AttributeData A M :=
  attribute_data

/-- Base `Attribute.prepare_write`: `return attribute_data`. -/
def Attribute_prepare_write {A M : Type} (attribute_data : AttributeData A M) :
    AttributeData A M :=
  attribute_data

/-- Python dict as an insertion-ordered association list: `d[k] = v`
replaces the value of an existing key in place, otherwise appends. -/
def alInsert {α : Type} : List (String × α) → String → α → List (String × α)
  | [], k, v => [(k, v)]
  | (k', v') :: rest, k, v =>
      if k' = k then (k, v) :: rest else (k', v') :: alInsert rest k v

/-- Python `d[k]` / `k in d` support: first (unique) binding of `k`. -/
def alLookup {α : Type} : List (String × α) → String → Option α
  | [], _ => none
  | (k', v) :: rest, k => if k' = k then some v else alLookup rest k

/-- The keys of an association list, in insertion order. -/
def keysOf {α : Type} (m : List (String × α)) : List String :=
  m.map Prod.fst

/-- Python `set.add` on a set modelled as a duplicate-free list. -/
def setAdd (s : List String) (x : String) : List String :=
  if x ∈ s then s else s ++ [x]

/-- `read_after` in read mode, `write_after` in write mode. -/
def afterListOf (m : PluginModule) (read_mode : Bool) : List String :=
  if read_mode then m.read_after else m.write_after

/-- `read_before` in read mode, `write_before` in write mode. -/
def beforeListOf (m : PluginModule) (read_mode : Bool) : List String :=
  if read_mode then m.read_before else m.write_before

/-- `enabled_plugins = [plugin._plugin_module.name for plugin in plugins]`. -/
def enabledOf (plugins : List PluginUnit) : List String :=
  plugins.map (fun u => u.mod.name)

/-- The seeded dependency set of one module: its `{mode}_after` names,
kept only when enabled (`if other in enabled_plugins: new_set.add(other)`). -/
def seedDeps (read_mode : Bool) (enabled : List String) (m : PluginModule) :
    List String :=
  (afterListOf m read_mode).foldl
    (fun acc other => if other ∈ enabled then setAdd acc other else acc) []

/-- One iteration of the first loop of `solve_plugin_order`:
`plugin_map[name] = plugin; dependency_map[name] = new_set`. -/
def seedStep (read_mode : Bool) (enabled : List String)
    (maps : List (String × PluginUnit) × List (String × List String))
    (u : PluginUnit) :
    List (String × PluginUnit) × List (String × List String) :=
  (alInsert maps.1 u.mod.name u,
    alInsert maps.2 u.mod.name (seedDeps read_mode enabled u.mod))

/-- First loop of `solve_plugin_order`: builds `plugin_map` and seeds
`dependency_map` with each module's `{mode}_after` names filtered to the
enabled ones. -/
def seedMaps (plugins : List PluginUnit) (read_mode : Bool)
    (enabled : List String) :
    List (String × PluginUnit) × List (String × List String) :=
  plugins.foldl (seedStep read_mode enabled) ([], [])

/-- One `before` entry of the second loop:
`if before in dependency_map: dependency_map[before].add(name)`. -/
def beforeStep (name : String) (dm : List (String × List String))
    (before : String) : List (String × List String) :=
  match alLookup dm before with
  | some s => alInsert dm before (setAdd s name)
  | none => dm

/-- Second loop of `solve_plugin_order`: for every `{mode}_before` name
that is a key of `dependency_map`, add the declaring module's name to
that key's dependency set. -/
def addBefores (plugins : List PluginUnit) (read_mode : Bool)
    (dm : List (String × List String)) : List (String × List String) :=
  plugins.foldl
    (fun dm u => (beforeListOf u.mod read_mode).foldl (beforeStep u.mod.name) dm)
    dm

/-- The per-mode dependency graph `dependency_map` after both
construction loops of `solve_plugin_order`. -/
def buildDepMap (plugins : List PluginUnit) (read_mode : Bool) :
    List (String × List String) :=
  addBefores plugins read_mode (seedMaps plugins read_mode (enabledOf plugins)).2

/-- The `plugin_map` built by the first loop of `solve_plugin_order`. -/
def buildPluginMap (plugins : List PluginUnit) (read_mode : Bool) :
    List (String × PluginUnit) :=
  (seedMaps plugins read_mode (enabledOf plugins)).1

/-- The dependency set of `name` (`dependency_map[name]`, `[]` if absent;
in the code the key is always present where this is consulted). -/
def depsOf (dm : List (String × List String)) (name : String) : List String :=
  (alLookup dm name).getD []

/-- The `while queue:` reachability loop of `solve_plugin_order`, with
explicit fuel.  One iteration collects every dependency of every queued
name into `new_queue` and adds the queued names to `needed_plugins`.
`none` means the Python loop has not terminated within `fuel` rounds —
the loop has no visited-set check, so on a cyclic graph the queue never
empties and the Python call diverges. -/
def closureAux : Nat → List (String × List String) → List String →
    List String → Option (List String)
  | _, _, [], needed => some needed
  | 0, _, _ :: _, _ => none
  | fuel + 1, dm, q, needed =>
      let newQueue := q.foldl (fun acc name => (depsOf dm name).foldl setAdd acc) []
      let needed' := q.foldl setAdd needed
      closureAux fuel dm newQueue needed'

/-- The `ready` list of one sort iteration: keys whose dependency set is
empty, in dict order. -/
def readyOf (dm : List (String × List String)) : List String :=
  (dm.filter (fun p => p.2.isEmpty)).map Prod.fst

/-- One round of removals: `del dependency_map[name] for name in ready`
followed by `dependencies.difference_update(ready)` on the survivors
(dict deletion keeps the remaining insertion order). -/
def stripReady (dm : List (String × List String)) (ready : List String) :
    List (String × List String) :=
  (dm.filter (fun p => decide (p.1 ∉ ready))).map
    (fun p => (p.1, p.2.filter (fun x => decide (x ∉ ready))))

/-- The `while dependency_map:` topological-sort loop.  Each iteration:
`ready` = keys with empty dependency sets (in dict order); raise
(`Except.error`) if none while the map is non-empty; otherwise delete
the ready keys, strip them from remaining dependency sets, append the
ready names.  Each successful iteration removes at least one entry, so
the caller's fuel `dm.length` always suffices. -/
def kahnAux : Nat → List (String × List String) → Except String (List String)
  | _, [] => Except.ok []
  | 0, _ :: _ => Except.error "Circular plugin dependency found!"
  | fuel + 1, dm =>
      let ready := readyOf dm
      if ready = [] then Except.error "Circular plugin dependency found!"
      else
        match kahnAux fuel (stripReady dm ready) with
        | Except.ok rest => Except.ok (ready ++ rest)
        | Except.error e => Except.error e

/-- `solve_plugin_order(plugins, read_mode)`.  `fuel` bounds only the
reachability loop; `none` means that loop diverged.  `Except.error`
models the raised `ValueError`; `Except.ok` carries `ordered_plugins`
(the per-round unit appends coincide with mapping the final name order
through `plugin_map`, which the sort loop never modifies). -/
def solve_plugin_order (plugins : List PluginUnit) (read_mode : Bool)
    (fuel : Nat) : Option (Except String (List PluginUnit)) :=
  let pm := buildPluginMap plugins read_mode
  let dm := buildDepMap plugins read_mode
  match closureAux fuel dm (enabledOf plugins) [] with
  | none => none
  | some needed =>
      let pm2 := pm.filter (fun p => decide (p.1 ∈ needed))
      let dm2 := dm.filter (fun p => decide (p.1 ∈ needed))
      some (Except.map
        (fun names => names.map (fun n => (alLookup pm2 n).getD default))
        (kahnAux dm2.length dm2))

/-- `solve_plugin_order` with the reachability/closure pass and the
`needed_plugins` restriction removed (the variant the specification's
open question asks to compare against). -/
def solve_plugin_order_noclosure (plugins : List PluginUnit)
    (read_mode : Bool) : Except String (List PluginUnit) :=
  let pm := buildPluginMap plugins read_mode
  let dm := buildDepMap plugins read_mode
  Except.map
    (fun names => names.map (fun n => (alLookup pm n).getD default))
    (kahnAux dm.length dm)

/-- Store-passing variant of `solve_plugin_order` for the frame
property: the store of input units (each with its module record) is
threaded through every phase; no statement of the Python body assigns to
an input object — every write targets the freshly built `plugin_map`,
`dependency_map`, the local sets, or `ordered_plugins` — so each phase
returns the store it received. -/
def solve_plugin_order_st (plugins : List PluginUnit) (read_mode : Bool)
    (fuel : Nat) :
    Option (Except String (List PluginUnit)) × List PluginUnit :=
  let store := plugins
  let seeded := (seedMaps store read_mode (enabledOf store), store)
  let pm := (seeded.1).1
  let withBefores := (addBefores seeded.2 read_mode (seeded.1).2, seeded.2)
  let dm := withBefores.1
  let store := withBefores.2
  match closureAux fuel dm (enabledOf store) [] with
  | none => (none, store)
  | some needed =>
      let pm2 := pm.filter (fun p => decide (p.1 ∈ needed))
      let dm2 := dm.filter (fun p => decide (p.1 ∈ needed))
      (some (Except.map
        (fun names => names.map (fun n => (alLookup pm2 n).getD default))
        (kahnAux dm2.length dm2)), store)

/-- A rank function witnessing that every dependency edge goes strictly
down: for every entry `(y, deps)` and every `x ∈ deps` (meaning `x` must
precede `y`), `rank x < rank y`. -/
def DepRank (dm : List (String × List String)) (rank : String → Nat) : Prop :=
  ∀ p ∈ dm, ∀ x ∈ p.2, rank x < rank p.1

/-- The dependency graph is acyclic: some rank function orients it. -/
def Acyclic (dm : List (String × List String)) : Prop :=
  ∃ rank : String → Nat, DepRank dm rank

/-- The unit that `plugin_map` (and its `needed` restriction, which the
reachability pass never shrinks) associates to an enabled bundle name. -/
def unitOf (plugins : List PluginUnit) (read_mode : Bool) (n : String) :
    PluginUnit :=
  (alLookup (buildPluginMap plugins read_mode) n).getD default

/-- Pointwise agreement of two unit lists on everything the resolver
consults in the given mode: object identity, bundle name, and the two
ordering lists of that mode (the other mode's lists are unconstrained). -/
def ModeAgree (read_mode : Bool) (u v : PluginUnit) : Prop :=
  u.uid = v.uid ∧ u.mod.name = v.mod.name ∧
    afterListOf u.mod read_mode = afterListOf v.mod read_mode ∧
    beforeListOf u.mod read_mode = beforeListOf v.mod read_mode

/-- The same units with every ordering list filtered to the enabled
names (dangling constraint entries removed). -/
def restrictConstraints (plugins : List PluginUnit) : List PluginUnit :=
  plugins.map (fun u =>
    ⟨u.uid,
      ⟨u.mod.name,
        u.mod.write_before.filter (fun s => decide (s ∈ enabledOf plugins)),
        u.mod.write_after.filter (fun s => decide (s ∈ enabledOf plugins)),
        u.mod.read_before.filter (fun s => decide (s ∈ enabledOf plugins)),
        u.mod.read_after.filter (fun s => decide (s ∈ enabledOf plugins))⟩⟩)

/-- Write-mode cycle from the specification: `A.write_before={"B"}`,
`B.write_before={"A"}`, both enabled. -/
def cycleUnits : List PluginUnit :=
  [⟨1, ⟨"A", ["B"], [], [], []⟩⟩, ⟨2, ⟨"B", ["A"], [], [], []⟩⟩]

/-- A self-dependent bundle, `S.write_after={"S"}`: the smallest cyclic
graph, used to compare the resolver with and without the closure pass. -/
def selfLoopUnits : List PluginUnit :=
  [⟨7, ⟨"S", [], ["S"], [], []⟩⟩]

/-- Two units of one bundle (both back-reference the name `"A"`). -/
def dupUnits : List PluginUnit :=
  [⟨1, ⟨"A", [], [], [], []⟩⟩, ⟨2, ⟨"A", [], [], [], []⟩⟩]

/-- Single enabled bundle `A` with `A.write_after = ["B"]`, `B` absent. -/
def danglingUnits : List PluginUnit :=
  [⟨1, ⟨"A", [], ["B"], [], []⟩⟩]

/-- Two enabled bundles with one write-mode edge: `A.write_after=["B"]`
(`B` must precede `A`). -/
def chainUnits : List PluginUnit :=
  [⟨1, ⟨"A", [], ["B"], [], []⟩⟩, ⟨2, ⟨"B", [], [], [], []⟩⟩]

/-- A rank function orienting `chainUnits`' write-mode graph. -/
def chainRank (s : String) : Nat :=
  if s = "B" then 0 else 1

/-- Two unconstrained bundles, for the determinism witness. -/
def freeUnits : List PluginUnit :=
  [⟨1, ⟨"A", [], [], [], []⟩⟩, ⟨2, ⟨"B", [], [], [], []⟩⟩]

/-- `chainUnits` with the read lists changed arbitrarily: agrees with
`chainUnits` on names, identities and the write-mode lists. -/
def chainUnitsReadTweaked : List PluginUnit :=
  [⟨1, ⟨"A", [], ["B"], ["B"], []⟩⟩, ⟨2, ⟨"B", [], [], [], ["A"]⟩⟩]

theorem mem_alInsert {α : Type} {m : List (String × α)} {k : String} {v : α}
    {p : String × α} (h : p ∈ alInsert m k v) : p = (k, v) ∨ p ∈ m := by
  induction m with
  | nil => simpa [alInsert] using h
  | cons q rest ih =>
      by_cases hk : q.1 = k
      · simp only [alInsert] at h
        rw [if_pos] at h
        · rcases List.mem_cons.mp h with h1 | h1
          · exact Or.inl h1
          · exact Or.inr (List.mem_cons_of_mem _ h1)
        · exact hk
      · simp only [alInsert] at h
        rw [if_neg] at h
        · rcases List.mem_cons.mp h with h1 | h1
          · exact Or.inr (by simp [h1])
          · rcases ih h1 with h2 | h2
            · exact Or.inl h2
            · exact Or.inr (List.mem_cons_of_mem _ h2)
        · exact hk

theorem mem_keysOf_alInsert {α : Type} (m : List (String × α)) (k : String)
    (v : α) (x : String) :
    x ∈ keysOf (alInsert m k v) ↔ x = k ∨ x ∈ keysOf m := by
  induction m with
  | nil => simp [alInsert, keysOf]
  | cons q rest ih =>
      obtain ⟨a, b⟩ := q
      simp only [keysOf, List.map_cons, List.mem_cons] at ih ⊢
      by_cases hk : a = k
      · simp only [alInsert, if_pos hk, List.map_cons, List.mem_cons]
        subst hk
        tauto
      · simp only [alInsert, if_neg hk, List.map_cons, List.mem_cons]
        rw [ih]
        tauto

theorem keysOf_alInsert_of_mem {α : Type} {m : List (String × α)} {k : String}
    (v : α) (h : k ∈ keysOf m) : keysOf (alInsert m k v) = keysOf m := by
  induction m with
  | nil => simp [keysOf] at h
  | cons q rest ih =>
      obtain ⟨a, b⟩ := q
      simp only [keysOf, List.map_cons] at ih ⊢
      by_cases hk : a = k
      · simp only [alInsert, if_pos hk, List.map_cons]
        rw [hk]
      · simp only [keysOf, List.map_cons, List.mem_cons] at h
        rcases h with h | h
        · exact absurd h.symm hk
        · simp only [alInsert, if_neg hk, List.map_cons]
          rw [ih h]

theorem nodup_keysOf_alInsert {α : Type} {m : List (String × α)} {k : String}
    (v : α) (h : (keysOf m).Nodup) : (keysOf (alInsert m k v)).Nodup := by
  induction m with
  | nil => simp [alInsert, keysOf]
  | cons q rest ih =>
      obtain ⟨a, b⟩ := q
      simp only [keysOf, List.map_cons, List.nodup_cons] at h
      by_cases hk : a = k
      · simp only [alInsert, if_pos hk, keysOf, List.map_cons, List.nodup_cons]
        subst hk
        exact h
      · simp only [alInsert, if_neg hk, keysOf, List.map_cons, List.nodup_cons]
        constructor
        · intro hmem
          rcases (mem_keysOf_alInsert rest k v a).mp hmem with h1 | h1
          · exact hk h1
          · exact h.1 h1
        · exact ih h.2

theorem alLookup_alInsert_self {α : Type} (m : List (String × α)) (k : String)
    (v : α) : alLookup (alInsert m k v) k = some v := by
  induction m with
  | nil => simp [alInsert, alLookup]
  | cons q rest ih =>
      obtain ⟨a, b⟩ := q
      by_cases hk : a = k
      · simp [alInsert, if_pos hk, alLookup]
      · simp only [alInsert, if_neg hk, alLookup]
        exact ih

theorem alLookup_alInsert_ne {α : Type} (m : List (String × α)) (k : String)
    (v : α) {x : String} (h : x ≠ k) :
    alLookup (alInsert m k v) x = alLookup m x := by
  have hkx : ¬ (k = x) := fun hh => h hh.symm
  induction m with
  | nil => simp [alInsert, alLookup, hkx]
  | cons q rest ih =>
      obtain ⟨a, b⟩ := q
      by_cases hk : a = k
      · simp only [alInsert, if_pos hk, alLookup]
        rw [if_neg hkx, if_neg (hk ▸ hkx)]
      · simp only [alInsert, if_neg hk, alLookup]
        by_cases hx : a = x
        · rw [if_pos hx, if_pos hx]
        · rw [if_neg hx, if_neg hx]
          exact ih

theorem alLookup_eq_none_iff {α : Type} (m : List (String × α)) (k : String) :
    alLookup m k = none ↔ k ∉ keysOf m := by
  induction m with
  | nil => simp [alLookup, keysOf]
  | cons q rest ih =>
      obtain ⟨a, b⟩ := q
      simp only [keysOf, List.map_cons, List.mem_cons] at ih ⊢
      by_cases hk : a = k
      · subst hk
        simp [alLookup]
      · simp only [alLookup, if_neg hk]
        rw [ih]
        have : ¬ (k = a) := fun hh => hk hh.symm
        tauto

theorem alLookup_mem {α : Type} {m : List (String × α)} {k : String} {v : α}
    (h : alLookup m k = some v) : (k, v) ∈ m := by
  induction m with
  | nil => simp [alLookup] at h
  | cons q rest ih =>
      obtain ⟨a, b⟩ := q
      by_cases hk : a = k
      · simp only [alLookup, if_pos hk, Option.some.injEq] at h
        subst hk
        subst h
        exact List.mem_cons_self _ _
      · simp only [alLookup, if_neg hk] at h
        exact List.mem_cons_of_mem _ (ih h)

theorem alLookup_of_mem_nodup {α : Type} {m : List (String × α)}
    {k : String} {v : α} (hnd : (keysOf m).Nodup) (h : (k, v) ∈ m) :
    alLookup m k = some v := by
  induction m with
  | nil => simp at h
  | cons q rest ih =>
      obtain ⟨a, b⟩ := q
      simp only [keysOf, List.map_cons, List.nodup_cons] at hnd
      rcases List.mem_cons.mp h with h1 | h1
      · rw [Prod.mk.injEq] at h1
        obtain ⟨h1a, h1b⟩ := h1
        subst h1a
        subst h1b
        simp [alLookup]
      · have hk : a ≠ k := by
          intro hq
          subst hq
          exact hnd.1 (List.mem_map.mpr ⟨(a, v), h1, rfl⟩)
        simp only [alLookup, if_neg hk]
        exact ih hnd.2 h1

theorem mem_setAdd (s : List String) (x y : String) :
    y ∈ setAdd s x ↔ y = x ∨ y ∈ s := by
  by_cases h : x ∈ s
  · simp only [setAdd, if_pos h]
    constructor
    · exact Or.inr
    · rintro (h1 | h1)
      · rw [h1]; exact h
      · exact h1
  · simp [setAdd, if_neg h, or_comm]

theorem mem_foldl_setAdd (l : List String) (acc : List String) (x : String) :
    x ∈ l.foldl setAdd acc ↔ x ∈ acc ∨ x ∈ l := by
  induction l generalizing acc with
  | nil => simp
  | cons a rest ih =>
      simp only [List.foldl_cons, ih, mem_setAdd, List.mem_cons]
      tauto

theorem nodup_foldl_setAdd (l : List String) (acc : List String)
    (h : acc.Nodup) : (l.foldl setAdd acc).Nodup := by
  induction l generalizing acc with
  | nil => exact h
  | cons a rest ih =>
      refine ih _ ?_
      by_cases ha : a ∈ acc
      · simpa [setAdd, ha]
      · simp only [setAdd, if_neg ha]
        refine List.Nodup.append h (List.nodup_singleton a) ?_
        intro x hx hxa
        rw [List.mem_singleton] at hxa
        subst hxa
        exact ha hx

theorem foldl_setAdd_of_nodup (l : List String) (acc : List String)
    (h : (acc ++ l).Nodup) : l.foldl setAdd acc = acc ++ l := by
  induction l generalizing acc with
  | nil => simp
  | cons a rest ih =>
      have ha : a ∉ acc := by
        intro hmem
        exact (List.disjoint_of_nodup_append h) hmem (List.mem_cons_self a rest)
      simp only [List.foldl_cons, setAdd, if_neg ha]
      rw [ih (acc ++ [a]) (by simpa using h)]
      simp

theorem mem_foldl_depsAdd (dm : List (String × List String))
    (q acc : List String) (x : String) :
    x ∈ q.foldl (fun acc name => (depsOf dm name).foldl setAdd acc) acc ↔
      x ∈ acc ∨ ∃ y ∈ q, x ∈ depsOf dm y := by
  induction q generalizing acc with
  | nil => simp
  | cons a rest ih =>
      simp only [List.foldl_cons, ih, mem_foldl_setAdd, List.mem_cons]
      constructor
      · rintro ((h | h) | ⟨y, hy, hx⟩)
        · exact Or.inl h
        · exact Or.inr ⟨a, Or.inl rfl, h⟩
        · exact Or.inr ⟨y, Or.inr hy, hx⟩
      · rintro (h | ⟨y, hy | hy, hx⟩)
        · exact Or.inl (Or.inl h)
        · exact Or.inl (Or.inr (hy ▸ hx))
        · exact Or.inr ⟨y, hy, hx⟩

theorem mem_keys_of_lookup_some {α : Type} {m : List (String × α)} {k : String}
    {v : α} (h : alLookup m k = some v) : k ∈ keysOf m := by
  by_contra hk
  rw [← alLookup_eq_none_iff] at hk
  rw [h] at hk
  exact Option.noConfusion hk

theorem keysOf_alInsert {α : Type} (m : List (String × α)) (k : String)
    (v : α) :
    keysOf (alInsert m k v) =
      if k ∈ keysOf m then keysOf m else keysOf m ++ [k] := by
  by_cases h : k ∈ keysOf m
  · rw [if_pos h, keysOf_alInsert_of_mem v h]
  · rw [if_neg h]
    induction m with
    | nil => simp [alInsert, keysOf]
    | cons q rest ih =>
        obtain ⟨a, b⟩ := q
        simp only [keysOf, List.map_cons, List.mem_cons] at h
        push_neg at h
        have hak : ¬ a = k := fun hh => h.1 hh.symm
        simp only [alInsert, if_neg hak, keysOf, List.map_cons, List.cons_append,
          List.cons.injEq, true_and]
        exact ih h.2

theorem mem_foldl_guardAdd (en : List String) (l : List String)
    (acc : List String) (hacc : ∀ y ∈ acc, y ∈ en) :
    ∀ x ∈ l.foldl (fun acc other => if other ∈ en then setAdd acc other else acc) acc,
      x ∈ en := by
  induction l generalizing acc with
  | nil => exact hacc
  | cons a rest ih =>
      rw [List.foldl_cons]
      refine ih _ ?_
      by_cases ha : a ∈ en
      · rw [if_pos ha]
        intro y hy
        rcases (mem_setAdd acc a y).mp hy with h1 | h1
        · rw [h1]; exact ha
        · exact hacc y h1
      · rw [if_neg ha]
        exact hacc

theorem mem_seedDeps {read_mode : Bool} {en : List String} {m : PluginModule}
    {x : String} (h : x ∈ seedDeps read_mode en m) : x ∈ en :=
  mem_foldl_guardAdd en (afterListOf m read_mode) [] (by simp) x h

theorem seedMaps_foldl_keys2 (plugins : List PluginUnit) (read_mode : Bool)
    (en : List String)
    (acc : List (String × PluginUnit) × List (String × List String))
    (x : String) :
    x ∈ keysOf (plugins.foldl (seedStep read_mode en) acc).2 ↔
      x ∈ keysOf acc.2 ∨ x ∈ enabledOf plugins := by
  induction plugins generalizing acc with
  | nil => simp [enabledOf]
  | cons u rest ih =>
      rw [List.foldl_cons, ih]
      simp only [seedStep, mem_keysOf_alInsert, enabledOf, List.map_cons,
        List.mem_cons]
      tauto

theorem seedMaps_foldl_keys1 (plugins : List PluginUnit) (read_mode : Bool)
    (en : List String)
    (acc : List (String × PluginUnit) × List (String × List String))
    (x : String) :
    x ∈ keysOf (plugins.foldl (seedStep read_mode en) acc).1 ↔
      x ∈ keysOf acc.1 ∨ x ∈ enabledOf plugins := by
  induction plugins generalizing acc with
  | nil => simp [enabledOf]
  | cons u rest ih =>
      rw [List.foldl_cons, ih]
      simp only [seedStep, mem_keysOf_alInsert, enabledOf, List.map_cons,
        List.mem_cons]
      tauto

theorem seedMaps_foldl_nodup2 (plugins : List PluginUnit) (read_mode : Bool)
    (en : List String)
    (acc : List (String × PluginUnit) × List (String × List String))
    (h : (keysOf acc.2).Nodup) :
    (keysOf (plugins.foldl (seedStep read_mode en) acc).2).Nodup := by
  induction plugins generalizing acc with
  | nil => exact h
  | cons u rest ih =>
      rw [List.foldl_cons]
      exact ih _ (nodup_keysOf_alInsert _ h)

theorem seedMaps_foldl_keys_eq (plugins : List PluginUnit) (read_mode : Bool)
    (en : List String)
    (acc : List (String × PluginUnit) × List (String × List String))
    (h : keysOf acc.1 = keysOf acc.2) :
    keysOf (plugins.foldl (seedStep read_mode en) acc).1 =
      keysOf (plugins.foldl (seedStep read_mode en) acc).2 := by
  induction plugins generalizing acc with
  | nil => exact h
  | cons u rest ih =>
      rw [List.foldl_cons]
      refine ih _ ?_
      simp only [seedStep, keysOf_alInsert, h]

theorem seedMaps_foldl_vals2 (plugins : List PluginUnit) (read_mode : Bool)
    (en : List String)
    (acc : List (String × PluginUnit) × List (String × List String))
    (h : ∀ q ∈ acc.2, ∀ x ∈ q.2, x ∈ en) :
    ∀ q ∈ (plugins.foldl (seedStep read_mode en) acc).2, ∀ x ∈ q.2, x ∈ en := by
  induction plugins generalizing acc with
  | nil => exact h
  | cons u rest ih =>
      rw [List.foldl_cons]
      refine ih _ ?_
      intro q hq x hx
      rcases mem_alInsert hq with h1 | h1
      · rw [h1] at hx
        exact mem_seedDeps hx
      · exact h q h1 x hx

theorem seedMaps_foldl_pm_names (plugins : List PluginUnit) (read_mode : Bool)
    (en : List String)
    (acc : List (String × PluginUnit) × List (String × List String))
    (h : ∀ q ∈ acc.1, (q.2).mod.name = q.1) :
    ∀ q ∈ (plugins.foldl (seedStep read_mode en) acc).1,
      (q.2).mod.name = q.1 := by
  induction plugins generalizing acc with
  | nil => exact h
  | cons u rest ih =>
      rw [List.foldl_cons]
      refine ih _ ?_
      intro q hq
      rcases mem_alInsert hq with h1 | h1
      · rw [h1]
      · exact h q h1

theorem keysOf_beforeStep (name : String) (dm : List (String × List String))
    (before : String) : keysOf (beforeStep name dm before) = keysOf dm := by
  unfold beforeStep
  cases h : alLookup dm before with
  | none => rfl
  | some s => exact keysOf_alInsert_of_mem _ (mem_keys_of_lookup_some h)

theorem keysOf_foldl_beforeStep (name : String) (l : List String)
    (dm : List (String × List String)) :
    keysOf (l.foldl (beforeStep name) dm) = keysOf dm := by
  induction l generalizing dm with
  | nil => rfl
  | cons a rest ih =>
      rw [List.foldl_cons, ih, keysOf_beforeStep]

theorem keysOf_addBefores (plugins : List PluginUnit) (read_mode : Bool)
    (dm : List (String × List String)) :
    keysOf (addBefores plugins read_mode dm) = keysOf dm := by
  unfold addBefores
  induction plugins generalizing dm with
  | nil => rfl
  | cons u rest ih =>
      rw [List.foldl_cons, ih, keysOf_foldl_beforeStep]

theorem beforeStep_vals {name : String} {dm : List (String × List String)}
    {before : String} {Q : String → Prop}
    (hdm : ∀ q ∈ dm, ∀ x ∈ q.2, Q x) (hn : Q name) :
    ∀ q ∈ beforeStep name dm before, ∀ x ∈ q.2, Q x := by
  unfold beforeStep
  cases h : alLookup dm before with
  | none => exact hdm
  | some s =>
      intro q hq x hx
      rcases mem_alInsert hq with h1 | h1
      · rw [h1] at hx
        rcases (mem_setAdd s name x).mp hx with h2 | h2
        · rw [h2]; exact hn
        · exact hdm (before, s) (alLookup_mem h) x h2
      · exact hdm q h1 x hx

theorem foldl_beforeStep_vals {name : String} {l : List String}
    {dm : List (String × List String)} {Q : String → Prop}
    (hdm : ∀ q ∈ dm, ∀ x ∈ q.2, Q x) (hn : Q name) :
    ∀ q ∈ l.foldl (beforeStep name) dm, ∀ x ∈ q.2, Q x := by
  induction l generalizing dm with
  | nil => exact hdm
  | cons a rest ih =>
      rw [List.foldl_cons]
      exact ih (beforeStep_vals hdm hn)

theorem addBefores_vals {plugins : List PluginUnit} {read_mode : Bool}
    {dm : List (String × List String)} {Q : String → Prop}
    (hdm : ∀ q ∈ dm, ∀ x ∈ q.2, Q x) (hp : ∀ u ∈ plugins, Q u.mod.name) :
    ∀ q ∈ addBefores plugins read_mode dm, ∀ x ∈ q.2, Q x := by
  unfold addBefores
  induction plugins generalizing dm with
  | nil => exact hdm
  | cons u rest ih =>
      rw [List.foldl_cons]
      exact ih
        (foldl_beforeStep_vals hdm (hp u (List.mem_cons_self u rest)))
        (fun w hw => hp w (List.mem_cons_of_mem u hw))

theorem mem_keys_buildDepMap (plugins : List PluginUnit) (read_mode : Bool)
    (x : String) :
    x ∈ keysOf (buildDepMap plugins read_mode) ↔ x ∈ enabledOf plugins := by
  unfold buildDepMap
  rw [keysOf_addBefores]
  unfold seedMaps
  rw [seedMaps_foldl_keys2]
  simp [keysOf]

theorem buildDepMap_keys_nodup (plugins : List PluginUnit) (read_mode : Bool) :
    (keysOf (buildDepMap plugins read_mode)).Nodup := by
  unfold buildDepMap
  rw [keysOf_addBefores]
  unfold seedMaps
  exact seedMaps_foldl_nodup2 plugins read_mode (enabledOf plugins) ([], [])
    (by simp [keysOf])

theorem buildDepMap_vals (plugins : List PluginUnit) (read_mode : Bool) :
    ∀ q ∈ buildDepMap plugins read_mode, ∀ x ∈ q.2, x ∈ enabledOf plugins := by
  unfold buildDepMap
  refine addBefores_vals ?_ ?_
  · exact seedMaps_foldl_vals2 plugins read_mode (enabledOf plugins) ([], [])
      (by simp)
  · intro u hu
    exact List.mem_map.mpr ⟨u, hu, rfl⟩

theorem buildDepMap_vals_keys (plugins : List PluginUnit) (read_mode : Bool) :
    ∀ q ∈ buildDepMap plugins read_mode, ∀ x ∈ q.2,
      x ∈ keysOf (buildDepMap plugins read_mode) := by
  intro q hq x hx
  rw [mem_keys_buildDepMap]
  exact buildDepMap_vals plugins read_mode q hq x hx

theorem keysOf_buildPluginMap_eq (plugins : List PluginUnit)
    (read_mode : Bool) :
    keysOf (buildPluginMap plugins read_mode) =
      keysOf (buildDepMap plugins read_mode) := by
  unfold buildPluginMap buildDepMap seedMaps
  rw [keysOf_addBefores]
  exact seedMaps_foldl_keys_eq plugins read_mode (enabledOf plugins) ([], []) rfl

theorem buildPluginMap_names (plugins : List PluginUnit) (read_mode : Bool) :
    ∀ q ∈ buildPluginMap plugins read_mode, (q.2).mod.name = q.1 := by
  unfold buildPluginMap seedMaps
  exact seedMaps_foldl_pm_names plugins read_mode (enabledOf plugins) ([], [])
    (by simp)

theorem entry_unique {α : Type} {m : List (String × α)}
    (hnd : (keysOf m).Nodup) {k : String} {d d' : α}
    (h1 : (k, d) ∈ m) (h2 : (k, d') ∈ m) : d = d' := by
  have e1 := alLookup_of_mem_nodup hnd h1
  have e2 := alLookup_of_mem_nodup hnd h2
  rw [e1] at e2
  exact Option.some.inj e2

theorem mem_keysOf_exists {α : Type} {m : List (String × α)} {k : String}
    (h : k ∈ keysOf m) : ∃ v, (k, v) ∈ m := by
  rcases List.mem_map.mp h with ⟨p, hp, hpk⟩
  refine ⟨p.2, ?_⟩
  rw [← hpk]
  exact hp

theorem mem_readyOf {dm : List (String × List String)} {a : String} :
    a ∈ readyOf dm ↔ (a, []) ∈ dm := by
  unfold readyOf
  constructor
  · intro h
    rcases List.mem_map.mp h with ⟨p, hp, hpk⟩
    rcases List.mem_filter.mp hp with ⟨hpm, hpe⟩
    have he : p.2 = [] := List.isEmpty_iff.mp hpe
    have hpa : (a, ([] : List String)) = p := by rw [← hpk, ← he]
    rw [hpa]
    exact hpm
  · intro h
    exact List.mem_map.mpr ⟨(a, []), List.mem_filter.mpr ⟨h, rfl⟩, rfl⟩

theorem readyOf_sub_keys {dm : List (String × List String)} {a : String}
    (h : a ∈ readyOf dm) : a ∈ keysOf dm :=
  List.mem_map.mpr ⟨(a, []), mem_readyOf.mp h, rfl⟩

theorem deps_empty_of_ready {dm : List (String × List String)}
    (hnd : (keysOf dm).Nodup) {y : String} {d : List String}
    (hm : (y, d) ∈ dm) (hy : y ∈ readyOf dm) : d = [] :=
  entry_unique hnd hm (mem_readyOf.mp hy)

theorem keysOf_stripReady (dm : List (String × List String))
    (ready : List String) :
    keysOf (stripReady dm ready) =
      (keysOf dm).filter (fun k => decide (k ∉ ready)) := by
  unfold stripReady keysOf
  rw [List.map_map, List.filter_map]
  rfl

theorem stripReady_length_lt {dm : List (String × List String)}
    (hr : ¬ readyOf dm = []) :
    (stripReady dm (readyOf dm)).length < dm.length := by
  unfold stripReady
  rw [List.length_map]
  refine List.length_filter_lt_length_iff_exists.mpr ?_
  rcases List.exists_mem_of_ne_nil _ hr with ⟨a, ha⟩
  refine ⟨(a, []), mem_readyOf.mp ha, ?_⟩
  simp only [decide_eq_true_eq, not_not]
  exact ha

theorem mem_stripReady {dm : List (String × List String)}
    {ready : List String} {q : String × List String}
    (h : q ∈ stripReady dm ready) :
    ∃ p ∈ dm, p.1 ∉ ready ∧
      q = (p.1, p.2.filter (fun x => decide (x ∉ ready))) := by
  unfold stripReady at h
  rcases List.mem_map.mp h with ⟨p, hp, hq⟩
  rcases List.mem_filter.mp hp with ⟨hpm, hpr⟩
  exact ⟨p, hpm, by simpa using hpr, hq.symm⟩

theorem stripReady_mem {dm : List (String × List String)}
    {ready : List String} {p : String × List String}
    (hm : p ∈ dm) (hr : p.1 ∉ ready) :
    (p.1, p.2.filter (fun x => decide (x ∉ ready))) ∈ stripReady dm ready :=
  List.mem_map.mpr ⟨p, List.mem_filter.mpr ⟨hm, by simpa⟩, rfl⟩

theorem nodup_keys_stripReady {dm : List (String × List String)}
    {ready : List String} (hnd : (keysOf dm).Nodup) :
    (keysOf (stripReady dm ready)).Nodup := by
  rw [keysOf_stripReady]
  exact hnd.filter _

theorem closed_stripReady {dm : List (String × List String)}
    (hclosed : ∀ q ∈ dm, ∀ x ∈ q.2, x ∈ keysOf dm) (ready : List String) :
    ∀ q ∈ stripReady dm ready, ∀ x ∈ q.2,
      x ∈ keysOf (stripReady dm ready) := by
  intro q hq x hx
  rcases mem_stripReady hq with ⟨p, hpm, hpr, rfl⟩
  rcases List.mem_filter.mp hx with ⟨hxd, hxr⟩
  rw [keysOf_stripReady]
  exact List.mem_filter.mpr ⟨hclosed p hpm x hxd, hxr⟩

theorem depRank_stripReady {dm : List (String × List String)}
    {rank : String → Nat} (h : DepRank dm rank) (ready : List String) :
    DepRank (stripReady dm ready) rank := by
  intro q hq x hx
  rcases mem_stripReady hq with ⟨p, hpm, hpr, rfl⟩
  rcases List.mem_filter.mp hx with ⟨hxd, hu⟩
  exact h p hpm x hxd

theorem readyOf_cons_empty (a : String) (rest : List (String × List String)) :
    readyOf ((a, []) :: rest) = a :: readyOf rest := by
  simp [readyOf, List.filter_cons]

theorem readyOf_cons_ne (a : String) (d : List String) (hd : ¬ d = [])
    (rest : List (String × List String)) :
    readyOf ((a, d) :: rest) = readyOf rest := by
  simp [readyOf, List.filter_cons, List.isEmpty_iff, hd]

theorem ready_filter_keys : ∀ (dm : List (String × List String)),
    (keysOf dm).Nodup →
    (keysOf dm).filter (fun k => decide (k ∈ readyOf dm)) = readyOf dm := by
  intro dm
  induction dm with
  | nil => intro h; rfl
  | cons q rest ih =>
      intro hnd
      obtain ⟨a, d⟩ := q
      simp only [keysOf, List.map_cons, List.nodup_cons] at hnd
      by_cases hd : d = []
      · subst hd
        rw [readyOf_cons_empty]
        rw [keysOf, List.map_cons, List.filter_cons]
        rw [if_pos (by simp)]
        congr 1
        have hcg : (List.map Prod.fst rest).filter
            (fun k => decide (k ∈ a :: readyOf rest)) =
            (List.map Prod.fst rest).filter
            (fun k => decide (k ∈ readyOf rest)) := by
          apply List.filter_congr
          intro x hx
          have hxa : ¬ x = a := fun hh => hnd.1 (hh ▸ hx)
          simp [List.mem_cons, hxa]
        rw [hcg]
        have ihr := ih hnd.2
        rw [keysOf] at ihr
        exact ihr
      · rw [readyOf_cons_ne a d hd]
        rw [keysOf, List.map_cons, List.filter_cons]
        rw [if_neg ?_]
        · have ihr := ih hnd.2
          rw [keysOf] at ihr
          exact ihr
        · simp only [decide_eq_true_eq]
          intro ha
          have := readyOf_sub_keys ha
          rw [keysOf] at this
          exact hnd.1 this

theorem ready_append_filter_perm (dm : List (String × List String))
    (hnd : (keysOf dm).Nodup) :
    List.Perm
      (readyOf dm ++ (keysOf dm).filter (fun k => decide (k ∉ readyOf dm)))
      (keysOf dm) := by
  have h1 := List.filter_append_perm
    (fun k => decide (k ∈ readyOf dm)) (keysOf dm)
  rw [ready_filter_keys dm hnd] at h1
  have h2 : (keysOf dm).filter (fun x => ! decide (x ∈ readyOf dm)) =
      (keysOf dm).filter (fun k => decide (k ∉ readyOf dm)) := by
    apply List.filter_congr
    intro x hx
    simp [decide_not]
  rw [h2] at h1
  exact h1

theorem kahnAux_perm : ∀ (fuel : Nat) (dm : List (String × List String)),
    dm.length ≤ fuel → (keysOf dm).Nodup →
    ∀ {names : List String}, kahnAux fuel dm = Except.ok names →
    List.Perm names (keysOf dm) := by
  intro fuel
  induction fuel with
  | zero =>
      intro dm hf hnd names h
      cases dm with
      | nil =>
          simp only [kahnAux, Except.ok.injEq] at h
          rw [← h]
          rfl
      | cons q rest => simp at hf
  | succ f ih =>
      intro dm hf hnd names h
      cases dm with
      | nil =>
          simp only [kahnAux, Except.ok.injEq] at h
          rw [← h]
          rfl
      | cons q rest =>
          simp only [kahnAux] at h
          by_cases hr : readyOf (q :: rest) = []
          · rw [if_pos hr] at h
            exact absurd h (by simp)
          · rw [if_neg hr] at h
            cases hk : kahnAux f (stripReady (q :: rest) (readyOf (q :: rest))) with
            | error e =>
                rw [hk] at h
                exact absurd h (by simp)
            | ok rest' =>
                rw [hk] at h
                simp only [Except.ok.injEq] at h
                have hlen : (stripReady (q :: rest) (readyOf (q :: rest))).length ≤ f :=
                  Nat.lt_succ_iff.mp (lt_of_lt_of_le (stripReady_length_lt hr) hf)
                have hperm := ih _ hlen (nodup_keys_stripReady hnd) hk
                rw [keysOf_stripReady] at hperm
                rw [← h]
                exact (List.Perm.append_left (readyOf (q :: rest)) hperm).trans
                  (ready_append_filter_perm (q :: rest) hnd)

theorem kahnAux_sound : ∀ (fuel : Nat) (dm : List (String × List String)),
    dm.length ≤ fuel → (keysOf dm).Nodup →
    ∀ {names : List String}, kahnAux fuel dm = Except.ok names →
    ∀ q ∈ dm, ∀ x ∈ q.2, List.indexOf x names < List.indexOf q.1 names := by
  intro fuel
  induction fuel with
  | zero =>
      intro dm hf hnd names h q hq x hx
      cases dm with
      | nil => simp at hq
      | cons p rest => simp at hf
  | succ f ih =>
      intro dm hf hnd names h q hq x hx
      cases dm with
      | nil => simp at hq
      | cons p rest =>
          simp only [kahnAux] at h
          by_cases hr : readyOf (p :: rest) = []
          · rw [if_pos hr] at h
            exact absurd h (by simp)
          · rw [if_neg hr] at h
            cases hk : kahnAux f (stripReady (p :: rest) (readyOf (p :: rest))) with
            | error e =>
                rw [hk] at h
                exact absurd h (by simp)
            | ok rest' =>
                rw [hk] at h
                simp only [Except.ok.injEq] at h
                rw [← h]
                obtain ⟨y, d⟩ := q
                by_cases hy : y ∈ readyOf (p :: rest)
                · have hde : d = [] := deps_empty_of_ready hnd hq hy
                  rw [hde] at hx
                  simp at hx
                · by_cases hxr : x ∈ readyOf (p :: rest)
                  · have hxlt : List.indexOf x (readyOf (p :: rest) ++ rest') <
                        (readyOf (p :: rest)).length := by
                      rw [List.indexOf_append_of_mem hxr]
                      exact List.indexOf_lt_length.mpr hxr
                    have hyge : (readyOf (p :: rest)).length ≤
                        List.indexOf y (readyOf (p :: rest) ++ rest') := by
                      rw [List.indexOf_append_of_not_mem hy]
                      exact Nat.le_add_right _ _
                    exact lt_of_lt_of_le hxlt hyge
                  · have hmem : ((y, d).1,
                        (y, d).2.filter (fun z => decide (z ∉ readyOf (p :: rest)))) ∈
                        stripReady (p :: rest) (readyOf (p :: rest)) :=
                      stripReady_mem hq hy
                    have hxf : x ∈ d.filter (fun z => decide (z ∉ readyOf (p :: rest))) :=
                      List.mem_filter.mpr ⟨hx, by simpa⟩
                    have hlen : (stripReady (p :: rest) (readyOf (p :: rest))).length ≤ f :=
                      Nat.lt_succ_iff.mp (lt_of_lt_of_le (stripReady_length_lt hr) hf)
                    have hlt := ih _ hlen (nodup_keys_stripReady hnd) hk _ hmem x hxf
                    rw [List.indexOf_append_of_not_mem hxr,
                      List.indexOf_append_of_not_mem hy]
                    exact Nat.add_lt_add_left hlt _

theorem kahnAux_success : ∀ (fuel : Nat) (dm : List (String × List String)),
    dm.length ≤ fuel →
    (∀ q ∈ dm, ∀ x ∈ q.2, x ∈ keysOf dm) →
    ∀ {rank : String → Nat}, DepRank dm rank →
    ∃ names, kahnAux fuel dm = Except.ok names := by
  intro fuel
  induction fuel with
  | zero =>
      intro dm hf hclosed rank hdr
      cases dm with
      | nil => exact ⟨[], rfl⟩
      | cons q rest => simp at hf
  | succ f ih =>
      intro dm hf hclosed rank hdr
      cases dm with
      | nil => exact ⟨[], rfl⟩
      | cons q rest =>
          have hex : ∃ p0, (q :: rest).argmin (fun p => rank p.1) = some p0 := by
            cases hm : (q :: rest).argmin (fun p => rank p.1) with
            | none => exact absurd (List.argmin_eq_none.mp hm) (by simp)
            | some p0 => exact ⟨p0, rfl⟩
          obtain ⟨p0, hp0⟩ := hex
          have hp0m : p0 ∈ q :: rest := List.argmin_mem hp0
          have hp0e : p0.2 = [] := by
            by_contra hne
            obtain ⟨x, hx⟩ := List.exists_mem_of_ne_nil _ hne
            have hlt : rank x < rank p0.1 := hdr p0 hp0m x hx
            have hxk : x ∈ keysOf (q :: rest) := hclosed p0 hp0m x hx
            obtain ⟨dx, hdx⟩ := mem_keysOf_exists hxk
            have hge : rank p0.1 ≤ rank x := by
              have hh := List.le_of_mem_argmin hdx (Option.mem_def.mpr hp0)
              simpa using hh
            omega
          have hready : ¬ readyOf (q :: rest) = [] := by
            intro hr
            have hpm : (p0.1, ([] : List String)) ∈ q :: rest := by
              have hpe : (p0.1, ([] : List String)) = p0 := by rw [← hp0e]
              rw [hpe]
              exact hp0m
            have hmem := mem_readyOf.mpr hpm
            rw [hr] at hmem
            exact absurd hmem (List.not_mem_nil _)
          have hlen : (stripReady (q :: rest) (readyOf (q :: rest))).length ≤ f :=
            Nat.lt_succ_iff.mp (lt_of_lt_of_le (stripReady_length_lt hready) hf)
          obtain ⟨names', hn⟩ := ih _ hlen
            (closed_stripReady hclosed (readyOf (q :: rest)))
            (depRank_stripReady hdr (readyOf (q :: rest)))
          refine ⟨readyOf (q :: rest) ++ names', ?_⟩
          simp only [kahnAux]
          rw [if_neg hready, hn]

theorem depsOf_sub_keys {dm : List (String × List String)}
    (hclosed : ∀ p ∈ dm, ∀ x ∈ p.2, x ∈ keysOf dm) {y x : String}
    (hx : x ∈ depsOf dm y) : x ∈ keysOf dm := by
  unfold depsOf at hx
  cases h : alLookup dm y with
  | none => rw [h] at hx; simp at hx
  | some d =>
      rw [h] at hx
      exact hclosed (y, d) (alLookup_mem h) x hx

theorem depsOf_rank {dm : List (String × List String)} {rank : String → Nat}
    (hdr : DepRank dm rank) {y x : String} (hx : x ∈ depsOf dm y) :
    rank x < rank y := by
  unfold depsOf at hx
  cases h : alLookup dm y with
  | none => rw [h] at hx; simp at hx
  | some d =>
      rw [h] at hx
      exact hdr (y, d) (alLookup_mem h) x hx

theorem closureAux_fuel_succ : ∀ (fuel : Nat)
    (dm : List (String × List String)) (q needed r : List String),
    closureAux fuel dm q needed = some r →
    closureAux (fuel + 1) dm q needed = some r := by
  intro fuel
  induction fuel with
  | zero =>
      intro dm q needed r h
      cases q with
      | nil => exact h
      | cons a t => exact absurd h (by simp [closureAux])
  | succ f ih =>
      intro dm q needed r h
      cases q with
      | nil => exact h
      | cons a t => exact ih dm _ _ r h

theorem closureAux_mono {f g : Nat} (hfg : f ≤ g)
    {dm : List (String × List String)} {q needed r : List String}
    (h : closureAux f dm q needed = some r) :
    closureAux g dm q needed = some r := by
  obtain ⟨d, rfl⟩ := Nat.le.dest hfg
  induction d with
  | zero => exact h
  | succ d ihd =>
      exact closureAux_fuel_succ (f + d) dm q needed r (ihd (Nat.le_add_right f d))

theorem closureAux_result_sub : ∀ (fuel : Nat)
    (dm : List (String × List String)) (q needed r : List String),
    (∀ x ∈ q, x ∈ keysOf dm) →
    (∀ p ∈ dm, ∀ x ∈ p.2, x ∈ keysOf dm) →
    closureAux fuel dm q needed = some r →
    ∀ x ∈ r, x ∈ needed ∨ x ∈ keysOf dm := by
  intro fuel
  induction fuel with
  | zero =>
      intro dm q needed r hq hclosed h x hx
      cases q with
      | nil =>
          simp only [closureAux, Option.some.injEq] at h
          rw [← h] at hx
          exact Or.inl hx
      | cons a t => exact absurd h (by simp [closureAux])
  | succ f ih =>
      intro dm q needed r hq hclosed h x hx
      cases q with
      | nil =>
          simp only [closureAux, Option.some.injEq] at h
          rw [← h] at hx
          exact Or.inl hx
      | cons a t =>
          have hstep : closureAux (f + 1) dm (a :: t) needed =
              closureAux f dm
                ((a :: t).foldl (fun acc name => (depsOf dm name).foldl setAdd acc) [])
                ((a :: t).foldl setAdd needed) := rfl
          rw [hstep] at h
          have hq' : ∀ y ∈ (a :: t).foldl
              (fun acc name => (depsOf dm name).foldl setAdd acc) [], y ∈ keysOf dm := by
            intro y hy
            rcases (mem_foldl_depsAdd dm (a :: t) [] y).mp hy with h1 | ⟨z, hz, hyz⟩
            · simp at h1
            · exact depsOf_sub_keys hclosed hyz
          rcases ih dm _ _ r hq' hclosed h x hx with h1 | h1
          · rcases (mem_foldl_setAdd (a :: t) needed x).mp h1 with h2 | h2
            · exact Or.inl h2
            · exact Or.inr (hq x h2)
          · exact Or.inr h1

theorem closureAux_result_sup : ∀ (fuel : Nat)
    (dm : List (String × List String)) (q needed r : List String),
    closureAux fuel dm q needed = some r →
    (∀ x ∈ needed, x ∈ r) ∧ (∀ x ∈ q, x ∈ r) := by
  intro fuel
  induction fuel with
  | zero =>
      intro dm q needed r h
      cases q with
      | nil =>
          simp only [closureAux, Option.some.injEq] at h
          rw [← h]
          exact ⟨fun x hx => hx, fun x hx => by simp at hx⟩
      | cons a t => exact absurd h (by simp [closureAux])
  | succ f ih =>
      intro dm q needed r h
      cases q with
      | nil =>
          simp only [closureAux, Option.some.injEq] at h
          rw [← h]
          exact ⟨fun x hx => hx, fun x hx => by simp at hx⟩
      | cons a t =>
          have hstep : closureAux (f + 1) dm (a :: t) needed =
              closureAux f dm
                ((a :: t).foldl (fun acc name => (depsOf dm name).foldl setAdd acc) [])
                ((a :: t).foldl setAdd needed) := rfl
          rw [hstep] at h
          have hsub := (ih dm _ _ r h).1
          constructor
          · intro x hx
            exact hsub x ((mem_foldl_setAdd (a :: t) needed x).mpr (Or.inl hx))
          · intro x hx
            exact hsub x ((mem_foldl_setAdd (a :: t) needed x).mpr (Or.inr hx))

/-- Maximum rank occurring in a queue (`0` for the empty queue). -/
def rankMax (rank : String → Nat) (q : List String) : Nat :=
  (q.map rank).foldr max 0

theorem le_rankMax {rank : String → Nat} {q : List String} {x : String}
    (h : x ∈ q) : rank x ≤ rankMax rank q := by
  induction q with
  | nil => simp at h
  | cons a t ih =>
      rcases List.mem_cons.mp h with h1 | h1
      · rw [h1]
        exact le_max_left _ _
      · exact le_trans (ih h1) (le_max_right _ _)

theorem rankMax_lt_of_forall {rank : String → Nat} {q : List String} {M : Nat}
    (hne : ¬ q = []) (h : ∀ x ∈ q, rank x < M) : rankMax rank q < M := by
  induction q with
  | nil => exact absurd rfl hne
  | cons a t ih =>
      have hM : 0 < M := Nat.pos_of_ne_zero (by
        intro h0
        rw [h0] at h
        exact Nat.not_lt_zero _ (h a (List.mem_cons_self a t)))
      show max (rank a) (rankMax rank t) < M
      rcases Nat.eq_zero_or_pos t.length with ht | ht
      · rw [List.length_eq_zero.mp ht]
        show max (rank a) 0 < M
        rw [Nat.max_eq_left (Nat.zero_le _)]
        exact h a (List.mem_cons_self a t)
      · have htne : ¬ t = [] := by
          intro h0
          rw [h0] at ht
          simp at ht
        refine Nat.max_lt.mpr ⟨h a (List.mem_cons_self a t), ?_⟩
        exact ih htne (fun x hx => h x (List.mem_cons_of_mem a hx))

theorem closureAux_term : ∀ (M : Nat) (dm : List (String × List String))
    (rank : String → Nat), DepRank dm rank →
    ∀ (q needed : List String), rankMax rank q ≤ M →
    ∃ r, closureAux (M + 1) dm q needed = some r := by
  intro M
  induction M using Nat.strong_induction_on with
  | _ M ih =>
      intro dm rank hdr q needed hM
      cases q with
      | nil => exact ⟨needed, rfl⟩
      | cons a t =>
          have hstep : closureAux (M + 1) dm (a :: t) needed =
              closureAux M dm
                ((a :: t).foldl (fun acc name => (depsOf dm name).foldl setAdd acc) [])
                ((a :: t).foldl setAdd needed) := rfl
          by_cases hq : (a :: t).foldl
              (fun acc name => (depsOf dm name).foldl setAdd acc) [] = []
          · refine ⟨(a :: t).foldl setAdd needed, ?_⟩
            rw [hstep, hq]
            cases M with
            | zero => rfl
            | succ m => rfl
          · have hlt : ∀ x ∈ (a :: t).foldl
                (fun acc name => (depsOf dm name).foldl setAdd acc) [], rank x < M := by
              intro x hx
              rcases (mem_foldl_depsAdd dm (a :: t) [] x).mp hx with h1 | ⟨y, hy, hxy⟩
              · simp at h1
              · exact lt_of_lt_of_le (depsOf_rank hdr hxy)
                  (le_trans (le_rankMax hy) hM)
            have hMlt : rankMax rank ((a :: t).foldl
                (fun acc name => (depsOf dm name).foldl setAdd acc) []) < M :=
              rankMax_lt_of_forall hq hlt
            obtain ⟨r, hr⟩ := ih _ hMlt dm rank hdr
              ((a :: t).foldl (fun acc name => (depsOf dm name).foldl setAdd acc) [])
              ((a :: t).foldl setAdd needed) (le_refl _)
            refine ⟨r, ?_⟩
            rw [hstep]
            exact closureAux_mono hMlt hr

theorem needed_iff_enabled {plugins : List PluginUnit} {read_mode : Bool}
    {fuel : Nat} {needed : List String}
    (hc : closureAux fuel (buildDepMap plugins read_mode)
      (enabledOf plugins) [] = some needed) :
    ∀ x, x ∈ needed ↔ x ∈ enabledOf plugins := by
  intro x
  constructor
  · intro hx
    rcases closureAux_result_sub fuel _ _ _ _
      (fun y hy => (mem_keys_buildDepMap plugins read_mode y).mpr hy)
      (buildDepMap_vals_keys plugins read_mode) hc x hx with h1 | h1
    · simp at h1
    · exact (mem_keys_buildDepMap plugins read_mode x).mp h1
  · intro hx
    exact (closureAux_result_sup fuel _ _ _ _ hc).2 x hx

theorem solve_eq_noclosure_of_closure {plugins : List PluginUnit}
    {read_mode : Bool} {fuel : Nat} {needed : List String}
    (hc : closureAux fuel (buildDepMap plugins read_mode)
      (enabledOf plugins) [] = some needed) :
    solve_plugin_order plugins read_mode fuel =
      some (solve_plugin_order_noclosure plugins read_mode) := by
  have hiff := needed_iff_enabled hc
  have hpm : (buildPluginMap plugins read_mode).filter
      (fun p => decide (p.1 ∈ needed)) = buildPluginMap plugins read_mode := by
    refine List.filter_eq_self.mpr ?_
    intro p hp
    simp only [decide_eq_true_eq]
    refine (hiff p.1).mpr ?_
    have hmem : p.1 ∈ keysOf (buildPluginMap plugins read_mode) :=
      List.mem_map.mpr ⟨p, hp, rfl⟩
    rw [keysOf_buildPluginMap_eq] at hmem
    exact (mem_keys_buildDepMap plugins read_mode p.1).mp hmem
  have hdm : (buildDepMap plugins read_mode).filter
      (fun p => decide (p.1 ∈ needed)) = buildDepMap plugins read_mode := by
    refine List.filter_eq_self.mpr ?_
    intro p hp
    simp only [decide_eq_true_eq]
    refine (hiff p.1).mpr ?_
    exact (mem_keys_buildDepMap plugins read_mode p.1).mp
      (List.mem_map.mpr ⟨p, hp, rfl⟩)
  simp only [solve_plugin_order, solve_plugin_order_noclosure]
  rw [hc]
  simp only [hpm, hdm]

theorem buildPluginMap_keys_nodup (plugins : List PluginUnit)
    (read_mode : Bool) : (keysOf (buildPluginMap plugins read_mode)).Nodup := by
  rw [keysOf_buildPluginMap_eq]
  exact buildDepMap_keys_nodup plugins read_mode

theorem unitOf_name {plugins : List PluginUnit} {read_mode : Bool} {n : String}
    (h : n ∈ enabledOf plugins) :
    (unitOf plugins read_mode n).mod.name = n := by
  have hk : n ∈ keysOf (buildPluginMap plugins read_mode) := by
    rw [keysOf_buildPluginMap_eq, mem_keys_buildDepMap]
    exact h
  obtain ⟨u, hu⟩ := mem_keysOf_exists hk
  unfold unitOf
  rw [alLookup_of_mem_nodup (buildPluginMap_keys_nodup plugins read_mode) hu]
  exact buildPluginMap_names plugins read_mode (n, u) hu

theorem indexOf_map_of_inj {α β : Type} [DecidableEq α] [DecidableEq β]
    (l : List α) (f : α → β) (a : α)
    (hinj : ∀ b ∈ l, f b = f a → b = a) :
    List.indexOf (f a) (l.map f) = List.indexOf a l := by
  induction l with
  | nil => rfl
  | cons x t ih =>
      by_cases hx : x = a
      · rw [hx, List.map_cons, List.indexOf_cons_self, List.indexOf_cons_self]
      · have hfx : f x ≠ f a := fun he =>
          hx (hinj x (List.mem_cons_self x t) he)
        rw [List.map_cons, List.indexOf_cons_ne _ hfx,
          List.indexOf_cons_ne _ hx,
          ih (fun b hb he => hinj b (List.mem_cons_of_mem x hb) he)]

theorem solve_ok_characterization {plugins : List PluginUnit}
    {read_mode : Bool} {rank : String → Nat}
    (hdr : DepRank (buildDepMap plugins read_mode) rank) :
    ∃ fuel names,
      solve_plugin_order plugins read_mode fuel =
        some (Except.ok (names.map (fun n => unitOf plugins read_mode n))) ∧
      List.Perm names (keysOf (buildDepMap plugins read_mode)) ∧
      (∀ q ∈ buildDepMap plugins read_mode, ∀ x ∈ q.2,
        List.indexOf x names < List.indexOf q.1 names) := by
  obtain ⟨needed, hc⟩ := closureAux_term (rankMax rank (enabledOf plugins)) _
    rank hdr (enabledOf plugins) [] (le_refl _)
  obtain ⟨names, hk⟩ := kahnAux_success (buildDepMap plugins read_mode).length
    _ (le_refl _) (buildDepMap_vals_keys plugins read_mode) hdr
  refine ⟨rankMax rank (enabledOf plugins) + 1, names, ?_,
    kahnAux_perm _ _ (le_refl _) (buildDepMap_keys_nodup plugins read_mode) hk,
    kahnAux_sound _ _ (le_refl _) (buildDepMap_keys_nodup plugins read_mode) hk⟩
  rw [solve_eq_noclosure_of_closure hc]
  simp only [solve_plugin_order_noclosure]
  rw [hk]
  rfl

/-- Claim C1: for every input list of plugin units whose per-mode
dependency graph is acyclic, the order returned by `solve_plugin_order`
satisfies every ordering constraint: for every edge "`x` must precede
`y`" of the constructed dependency graph (`x ∈ depsOf … y`), the unit
of bundle `x` appears strictly before the unit of bundle `y` in the
returned list. -/
theorem solve_plugin_order_respects_edges (plugins : List PluginUnit)
    (read_mode : Bool) (hacy : Acyclic (buildDepMap plugins read_mode)) :
    ∃ fuel order,
      solve_plugin_order plugins read_mode fuel = some (Except.ok order) ∧
      ∀ y x, x ∈ depsOf (buildDepMap plugins read_mode) y →
        List.indexOf (unitOf plugins read_mode x) order <
          List.indexOf (unitOf plugins read_mode y) order := by
  obtain ⟨rank, hdr⟩ := hacy
  obtain ⟨fuel, names, hsolve, hperm, hsound⟩ := solve_ok_characterization hdr
  refine ⟨fuel, names.map (fun n => unitOf plugins read_mode n), hsolve, ?_⟩
  intro y x hx
  have hylk : ∃ d, alLookup (buildDepMap plugins read_mode) y = some d := by
    cases h : alLookup (buildDepMap plugins read_mode) y with
    | none => rw [depsOf, h] at hx; simp at hx
    | some d => exact ⟨d, rfl⟩
  obtain ⟨d, hd⟩ := hylk
  have hxd : x ∈ d := by rw [depsOf, hd] at hx; exact hx
  have hyd : (y, d) ∈ buildDepMap plugins read_mode := alLookup_mem hd
  have hidx := hsound (y, d) hyd x hxd
  have hyk : y ∈ keysOf (buildDepMap plugins read_mode) :=
    mem_keys_of_lookup_some hd
  have hxk : x ∈ keysOf (buildDepMap plugins read_mode) :=
    buildDepMap_vals_keys plugins read_mode (y, d) hyd x hxd
  have hyen : y ∈ enabledOf plugins := (mem_keys_buildDepMap _ _ y).mp hyk
  have hxen : x ∈ enabledOf plugins := (mem_keys_buildDepMap _ _ x).mp hxk
  have htrans : ∀ m, m ∈ enabledOf plugins →
      List.indexOf (unitOf plugins read_mode m)
        (names.map (fun n => unitOf plugins read_mode n)) =
      List.indexOf m names := by
    intro m hm
    refine indexOf_map_of_inj names _ m ?_
    intro b hb he
    have hben : b ∈ enabledOf plugins :=
      (mem_keys_buildDepMap _ _ b).mp (hperm.subset hb)
    have h1 : (unitOf plugins read_mode b).mod.name = b := unitOf_name hben
    have h2 : (unitOf plugins read_mode m).mod.name = m := unitOf_name hm
    rw [← h1, ← h2, he]
  rw [htrans x hxen, htrans y hyen]
  exact hidx

/-- Witness for C1: `chainUnits` (edge: `B` must precede `A` in write
mode) with the orienting rank `chainRank`. -/
theorem solve_plugin_order_respects_edges_witness :
    ∃ fuel order,
      solve_plugin_order chainUnits false fuel = some (Except.ok order) ∧
      ∀ y x, x ∈ depsOf (buildDepMap chainUnits false) y →
        List.indexOf (unitOf chainUnits false x) order <
          List.indexOf (unitOf chainUnits false y) order :=
  solve_plugin_order_respects_edges chainUnits false
    ⟨chainRank, by unfold DepRank; decide⟩

theorem alInsert_of_not_mem {α : Type} {m : List (String × α)} {k : String}
    (v : α) (h : k ∉ keysOf m) : alInsert m k v = m ++ [(k, v)] := by
  induction m with
  | nil => rfl
  | cons q rest ih =>
      obtain ⟨a, b⟩ := q
      simp only [keysOf, List.map_cons, List.mem_cons] at h
      push_neg at h
      have hak : ¬ a = k := fun hh => h.1 hh.symm
      simp only [alInsert, if_neg hak, List.cons_append, List.cons.injEq, true_and]
      refine ih ?_
      simp only [keysOf]
      exact h.2

theorem seedMaps_foldl_fst_decomp (plugins : List PluginUnit)
    (read_mode : Bool) (en : List String) :
    ∀ (acc : List (String × PluginUnit) × List (String × List String)),
    (plugins.foldl (seedStep read_mode en) acc).1 =
      plugins.foldl (fun m u => alInsert m u.mod.name u) acc.1 := by
  induction plugins with
  | nil => intro acc; rfl
  | cons u rest ih =>
      intro acc
      rw [List.foldl_cons, List.foldl_cons, ih]
      rfl

theorem seedMaps_foldl_snd_decomp (plugins : List PluginUnit)
    (read_mode : Bool) (en : List String) :
    ∀ (acc : List (String × PluginUnit) × List (String × List String)),
    (plugins.foldl (seedStep read_mode en) acc).2 =
      plugins.foldl
        (fun m u => alInsert m u.mod.name (seedDeps read_mode en u.mod)) acc.2 := by
  induction plugins with
  | nil => intro acc; rfl
  | cons u rest ih =>
      intro acc
      rw [List.foldl_cons, List.foldl_cons, ih]
      rfl

theorem foldl_alInsert_fresh {α : Type} (g : PluginUnit → α) :
    ∀ (plugins : List PluginUnit) (m : List (String × α)),
    (∀ u ∈ plugins, u.mod.name ∉ keysOf m) → (enabledOf plugins).Nodup →
    plugins.foldl (fun m u => alInsert m u.mod.name (g u)) m =
      m ++ plugins.map (fun u => (u.mod.name, g u)) := by
  intro plugins
  induction plugins with
  | nil => intro m hm hnd; simp
  | cons u rest ih =>
      intro m hm hnd
      simp only [enabledOf, List.map_cons, List.nodup_cons] at hnd
      rw [List.foldl_cons,
        alInsert_of_not_mem (g u) (hm u (List.mem_cons_self u rest))]
      rw [ih (m ++ [(u.mod.name, g u)]) ?_ hnd.2]
      · rw [List.append_assoc]
        rfl
      · intro w hw
        simp only [keysOf, List.map_append, List.mem_append, List.map_cons]
        push_neg
        constructor
        · have := hm w (List.mem_cons_of_mem u hw)
          simpa [keysOf] using this
        · simp only [List.map_nil, List.mem_singleton]
          intro he
          exact hnd.1 (by rw [← he]; exact List.mem_map.mpr ⟨w, hw, rfl⟩)

theorem buildPluginMap_of_nodup {plugins : List PluginUnit}
    {read_mode : Bool} (hnd : (enabledOf plugins).Nodup) :
    buildPluginMap plugins read_mode =
      plugins.map (fun u => (u.mod.name, u)) := by
  unfold buildPluginMap seedMaps
  rw [seedMaps_foldl_fst_decomp]
  exact foldl_alInsert_fresh _ plugins [] (by simp [keysOf]) hnd

theorem keysOf_buildDepMap_of_nodup {plugins : List PluginUnit}
    {read_mode : Bool} (hnd : (enabledOf plugins).Nodup) :
    keysOf (buildDepMap plugins read_mode) = enabledOf plugins := by
  unfold buildDepMap seedMaps
  rw [keysOf_addBefores, seedMaps_foldl_snd_decomp,
    foldl_alInsert_fresh _ plugins [] (by simp [keysOf]) hnd]
  simp [keysOf, enabledOf, List.map_map]

theorem unitOf_of_mem_nodup {plugins : List PluginUnit} {read_mode : Bool}
    (hnd : (enabledOf plugins).Nodup) {u : PluginUnit} (hu : u ∈ plugins) :
    unitOf plugins read_mode u.mod.name = u := by
  have hmem : (u.mod.name, u) ∈ buildPluginMap plugins read_mode := by
    rw [buildPluginMap_of_nodup hnd]
    exact List.mem_map.mpr ⟨u, hu, rfl⟩
  unfold unitOf
  rw [alLookup_of_mem_nodup (buildPluginMap_keys_nodup plugins read_mode) hmem]
  rfl

theorem enabled_map_unitOf_of_nodup {plugins : List PluginUnit}
    {read_mode : Bool} (hnd : (enabledOf plugins).Nodup) :
    (enabledOf plugins).map (fun n => unitOf plugins read_mode n) = plugins := by
  unfold enabledOf
  rw [List.map_map]
  have hcg : ∀ u ∈ plugins,
      ((fun n => unitOf plugins read_mode n) ∘ fun u => u.mod.name) u = id u :=
    fun u hu => unitOf_of_mem_nodup hnd hu
  rw [List.map_congr_left hcg, List.map_id]

/-- Claim C3 (amended): for every input list of plugin units whose
bundle names are pairwise distinct and whose per-mode dependency graph
is acyclic, `solve_plugin_order` succeeds and returns a permutation of
the input unit list.  (Without the distinctness hypothesis the claim is
false: units of a repeated bundle name collapse in `plugin_map`, see the
counterexample.) -/
theorem solve_plugin_order_perm_of_nodup (plugins : List PluginUnit)
    (read_mode : Bool) (hnd : (enabledOf plugins).Nodup)
    (hacy : Acyclic (buildDepMap plugins read_mode)) :
    ∃ fuel order,
      solve_plugin_order plugins read_mode fuel = some (Except.ok order) ∧
      List.Perm order plugins := by
  obtain ⟨rank, hdr⟩ := hacy
  obtain ⟨fuel, names, hsolve, hperm, hsound⟩ := solve_ok_characterization hdr
  refine ⟨fuel, names.map (fun n => unitOf plugins read_mode n), hsolve, ?_⟩
  rw [keysOf_buildDepMap_of_nodup hnd] at hperm
  have hmapped := hperm.map (fun n => unitOf plugins read_mode n)
  rw [enabled_map_unitOf_of_nodup hnd] at hmapped
  exact hmapped

/-- Counterexample to C3 as stated: `dupUnits` carries two units whose
bundle name is `"A"`; its dependency graph `[("A", [])]` is acyclic, yet
the returned order holds only the later unit (the earlier one was
overwritten in `plugin_map`), so it is not a permutation of the input. -/
theorem solve_plugin_order_duplicate_names_collapse :
    solve_plugin_order dupUnits false 2 =
      some (Except.ok [⟨2, ⟨"A", [], [], [], []⟩⟩]) ∧
    ¬ List.Perm [(⟨2, ⟨"A", [], [], [], []⟩⟩ : PluginUnit)] dupUnits := by
  constructor
  · rfl
  · intro h
    have := h.length_eq
    simp [dupUnits] at this

/-- Witness for C3 (amended) at `chainUnits`. -/
theorem solve_plugin_order_perm_of_nodup_witness :
    ∃ fuel order,
      solve_plugin_order chainUnits false fuel = some (Except.ok order) ∧
      List.Perm order chainUnits :=
  solve_plugin_order_perm_of_nodup chainUnits false (by decide)
    ⟨chainRank, by unfold DepRank; decide⟩

theorem addBefores_nil_before (read_mode : Bool) :
    ∀ (plugins : List PluginUnit) (dm : List (String × List String)),
    (∀ u ∈ plugins, beforeListOf u.mod read_mode = []) →
    addBefores plugins read_mode dm = dm := by
  intro plugins
  unfold addBefores
  induction plugins with
  | nil => intro dm hb; rfl
  | cons u rest ih =>
      intro dm hb
      rw [List.foldl_cons, hb u (List.mem_cons_self u rest)]
      exact ih dm (fun w hw => hb w (List.mem_cons_of_mem u hw))

theorem buildDepMap_unconstrained {plugins : List PluginUnit}
    {read_mode : Bool}
    (hafter : ∀ u ∈ plugins, afterListOf u.mod read_mode = [])
    (hbefore : ∀ u ∈ plugins, beforeListOf u.mod read_mode = [])
    (hnd : (enabledOf plugins).Nodup) :
    buildDepMap plugins read_mode =
      (enabledOf plugins).map (fun n => (n, [])) := by
  unfold buildDepMap seedMaps
  rw [addBefores_nil_before read_mode plugins _ hbefore,
    seedMaps_foldl_snd_decomp,
    foldl_alInsert_fresh _ plugins [] (by simp [keysOf]) hnd]
  simp only [List.nil_append]
  unfold enabledOf
  rw [List.map_map]
  apply List.map_congr_left
  intro u hu
  simp [seedDeps, hafter u hu]

theorem depsOf_of_all_nil {dm : List (String × List String)}
    (h : ∀ q ∈ dm, q.2 = []) (n : String) : depsOf dm n = [] := by
  unfold depsOf
  cases hl : alLookup dm n with
  | none => rfl
  | some d => exact h (n, d) (alLookup_mem hl)

theorem foldl_depsAdd_nil {dm : List (String × List String)}
    (h : ∀ n, depsOf dm n = []) :
    ∀ (q acc : List String),
    q.foldl (fun acc name => (depsOf dm name).foldl setAdd acc) acc = acc := by
  intro q
  induction q with
  | nil => intro acc; rfl
  | cons a t ih =>
      intro acc
      rw [List.foldl_cons, h a]
      exact ih acc

theorem closureAux_unconstrained {dm : List (String × List String)}
    (h : ∀ n, depsOf dm n = []) (fuel : Nat)
    (q : List String) (hnd : q.Nodup) :
    closureAux (fuel + 1) dm q [] = some q := by
  cases q with
  | nil => rfl
  | cons a t =>
      have hstep : closureAux (fuel + 1) dm (a :: t) [] =
          closureAux fuel dm
            ((a :: t).foldl (fun acc name => (depsOf dm name).foldl setAdd acc) [])
            ((a :: t).foldl setAdd []) := rfl
      rw [hstep, foldl_depsAdd_nil h,
        foldl_setAdd_of_nodup (a :: t) [] (by simpa using hnd)]
      simp [closureAux]

theorem readyOf_map_nil (q : List String) :
    readyOf (q.map (fun n => (n, []))) = q := by
  unfold readyOf
  rw [List.filter_eq_self.mpr ?_, List.map_map]
  · show q.map (fun n => n) = q
    exact List.map_id q
  · intro p hp
    rcases List.mem_map.mp hp with ⟨n, hn, rfl⟩
    rfl

theorem stripReady_map_nil (q : List String) :
    stripReady (q.map (fun n => (n, []))) q = [] := by
  unfold stripReady
  rw [List.filter_eq_nil_iff.mpr ?_]
  · rfl
  · intro p hp
    rcases List.mem_map.mp hp with ⟨n, hn, rfl⟩
    simp [hn]

theorem kahnAux_map_nil (q : List String) :
    kahnAux (q.map (fun n => (n, ([] : List String)))).length
      (q.map (fun n => (n, ([] : List String)))) = Except.ok q := by
  cases q with
  | nil => rfl
  | cons a t =>
      have hready := readyOf_map_nil (a :: t)
      have hstrip := stripReady_map_nil (a :: t)
      rw [List.map_cons] at hready hstrip ⊢
      rw [List.length_cons]
      simp only [kahnAux]
      rw [hready, if_neg (by simp : ¬ (a :: t) = []), hstrip]
      simp [kahnAux]

/-- Claim C6: resolving the same unchanged input twice yields the same
order (the resolver is a pure function of its input: the Python body
consumes its sets only through membership and emptiness, so even set
iteration order cannot leak into the result), and ties among
simultaneously ready nodes are broken by original declaration order: on
an input with no constraints at all, every node is ready in the first
round and the returned order is exactly the input order. -/
theorem solve_plugin_order_deterministic (plugins : List PluginUnit)
    (read_mode : Bool) (fuel : Nat)
    (hnc : ∀ u ∈ plugins, u.mod.write_before = [] ∧ u.mod.write_after = [] ∧
      u.mod.read_before = [] ∧ u.mod.read_after = [])
    (hnd : (enabledOf plugins).Nodup) :
    solve_plugin_order plugins read_mode (fuel + 1) =
      solve_plugin_order plugins read_mode (fuel + 1) ∧
    solve_plugin_order plugins read_mode (fuel + 1) =
      some (Except.ok plugins) := by
  refine ⟨rfl, ?_⟩
  have hafter : ∀ u ∈ plugins, afterListOf u.mod read_mode = [] := by
    intro u hu
    obtain ⟨h1, h2, h3, h4⟩ := hnc u hu
    cases read_mode <;> simp [afterListOf, h2, h4]
  have hbefore : ∀ u ∈ plugins, beforeListOf u.mod read_mode = [] := by
    intro u hu
    obtain ⟨h1, h2, h3, h4⟩ := hnc u hu
    cases read_mode <;> simp [beforeListOf, h1, h3]
  have hdm := buildDepMap_unconstrained hafter hbefore hnd
  have hdeps : ∀ n, depsOf (buildDepMap plugins read_mode) n = [] := by
    intro n
    apply depsOf_of_all_nil
    intro p hp
    rw [hdm] at hp
    rcases List.mem_map.mp hp with ⟨m, hm, rfl⟩
    rfl
  have hc : closureAux (fuel + 1) (buildDepMap plugins read_mode)
      (enabledOf plugins) [] = some (enabledOf plugins) :=
    closureAux_unconstrained hdeps fuel (enabledOf plugins) hnd
  rw [solve_eq_noclosure_of_closure hc]
  simp only [solve_plugin_order_noclosure]
  rw [hdm, kahnAux_map_nil]
  show some (Except.ok ((enabledOf plugins).map
    (fun n => unitOf plugins read_mode n))) = _
  rw [enabled_map_unitOf_of_nodup hnd]

/-- Witness for C6 at the unconstrained two-bundle input `freeUnits`. -/
theorem solve_plugin_order_deterministic_witness :
    solve_plugin_order freeUnits false (0 + 1) =
      solve_plugin_order freeUnits false (0 + 1) ∧
    solve_plugin_order freeUnits false (0 + 1) =
      some (Except.ok freeUnits) :=
  solve_plugin_order_deterministic freeUnits false 0 (by decide) (by decide)

theorem closureAux_cycle_pair : ∀ fuel : Nat,
    closureAux fuel [("A", ["B"]), ("B", ["A"])] ["A", "B"] ["A", "B"] = none ∧
    closureAux fuel [("A", ["B"]), ("B", ["A"])] ["B", "A"] ["A", "B"] = none := by
  intro fuel
  induction fuel with
  | zero => exact ⟨rfl, rfl⟩
  | succ f ih => exact ⟨ih.2, ih.1⟩

/-- Claim C2 (code bug): on the specification's own cycle
(`A.write_before={"B"}`, `B.write_before={"A"}`, both enabled) the code
raises nothing at all: the reachability loop has no visited check, its
queue oscillates between `{A,B}` and `{B,A}` forever, so
`solve_plugin_order` diverges (`none` for every fuel) and the
`ValueError` is dead code on this path.  Even the closure-free variant
that does reach the raise produces the fixed message
"Circular plugin dependency found!", which names no bundle. -/
theorem solve_plugin_order_cycle_diverges :
    (∀ fuel : Nat, solve_plugin_order cycleUnits false fuel = none) ∧
    solve_plugin_order_noclosure cycleUnits false =
      Except.error "Circular plugin dependency found!" := by
  constructor
  · intro fuel
    have hc : closureAux fuel (buildDepMap cycleUnits false)
        (enabledOf cycleUnits) [] = none := by
      cases fuel with
      | zero => rfl
      | succ f =>
          show closureAux f [("A", ["B"]), ("B", ["A"])] ["B", "A"] ["A", "B"] = none
          exact (closureAux_cycle_pair f).2
    simp only [solve_plugin_order]
    rw [hc]
  · rfl

/-- Counterexample to C7 as stated: constructing a bundle with the empty
name does not fail — `Plugin.__init__` performs no validation (there is
no `ConfigError` anywhere in the code); the empty name is stored
verbatim and an ordinary `Plugin` value is produced. -/
theorem Plugin_init_empty_name_accepted :
    Plugin_init "" none none none none none none none none none =
      ⟨⟨"", [], [], [], []⟩, [], [], [], [], []⟩ := rfl

/-- Claim C7 (amended): construction never validates the name — any
name, the empty string included, is accepted and stored unchanged; each
absent unit or ordering list defaults to the empty list; and every
contained unit receives the back-reference to the constructed module. -/
theorem Plugin_init_defaults (name : String)
    (ds ats fs gs rs : Option (List Nat))
    (wb wa rb ra : Option (List String)) :
    (Plugin_init name ds ats fs gs rs wb wa rb ra).module =
      ⟨name, wb.getD [], wa.getD [], rb.getD [], ra.getD []⟩ ∧
    (Plugin_init name ds ats fs gs rs wb wa rb ra).dataset_plugins =
      (ds.getD []).map (fun u => ⟨u, (Plugin_init name ds ats fs gs rs wb wa rb ra).module⟩) ∧
    (Plugin_init name ds ats fs gs rs wb wa rb ra).attribute_plugins =
      (ats.getD []).map (fun u => ⟨u, (Plugin_init name ds ats fs gs rs wb wa rb ra).module⟩) ∧
    (Plugin_init name ds ats fs gs rs wb wa rb ra).file_plugins =
      (fs.getD []).map (fun u => ⟨u, (Plugin_init name ds ats fs gs rs wb wa rb ra).module⟩) ∧
    (Plugin_init name ds ats fs gs rs wb wa rb ra).group_plugins =
      (gs.getD []).map (fun u => ⟨u, (Plugin_init name ds ats fs gs rs wb wa rb ra).module⟩) ∧
    (Plugin_init name ds ats fs gs rs wb wa rb ra).raw_plugins =
      (rs.getD []).map (fun u => ⟨u, (Plugin_init name ds ats fs gs rs wb wa rb ra).module⟩) :=
  ⟨rfl, rfl, rfl, rfl, rfl, rfl⟩

/-- Claim C8: the non-overridden default hooks are identities: the base
`Dataset.prepare_read`, `Dataset.prepare_write`,
`Attribute.prepare_read` and `Attribute.prepare_write` return their
input envelope unchanged, and the base `Dataset.before_load` returns
nothing (`None`) and has no effect. -/
theorem default_hooks_identity (D A M : Type) :
    (∀ d : DatasetData D A M, Dataset_prepare_read d = d) ∧
    (∀ d : DatasetData D A M, Dataset_prepare_write d = d) ∧
    (∀ a : AttributeData A M, Attribute_prepare_read a = a) ∧
    (∀ a : AttributeData A M, Attribute_prepare_write a = a) ∧
    (∀ p : String, Dataset_before_load p = ()) :=
  ⟨fun d => rfl, fun d => rfl, fun a => rfl, fun a => rfl, fun p => rfl⟩

/-- Claim C10: resolution never mutates its inputs.  In the
store-passing embedding every phase hands the store of input units
(each bundle name and its four ordering lists included) through
untouched — no statement of the Python body assigns to an input object;
all writes target the freshly built maps — and the store-passing
resolver computes the same result as the plain one. -/
theorem solve_plugin_order_preserves_inputs (plugins : List PluginUnit)
    (read_mode : Bool) (fuel : Nat) :
    (solve_plugin_order_st plugins read_mode fuel).2 = plugins ∧
    (solve_plugin_order_st plugins read_mode fuel).1 =
      solve_plugin_order plugins read_mode fuel := by
  simp only [solve_plugin_order_st, solve_plugin_order, buildDepMap,
    buildPluginMap]
  cases closureAux fuel
      (addBefores plugins read_mode
        (seedMaps plugins read_mode (enabledOf plugins)).2)
      (enabledOf plugins) [] with
  | none => exact ⟨rfl, rfl⟩
  | some needed => exact ⟨rfl, rfl⟩

theorem closureAux_selfloop : ∀ fuel : Nat,
    closureAux fuel [("S", ["S"])] ["S"] ["S"] = none := by
  intro fuel
  induction fuel with
  | zero => rfl
  | succ f ih => exact ih

/-- Counterexample to C9 as stated: on the self-dependent input
`selfLoopUnits` (`S.write_after={"S"}`) the resolver with the closure
pass diverges — the reachability queue reproduces `{S}` forever, `none`
for every fuel — while the resolver without the pass reaches the sort
loop and raises.  The two are not extensionally equal, so the closure
pass is not a no-op for every input. -/
theorem closure_pass_not_noop_on_cycle :
    (∀ fuel : Nat, solve_plugin_order selfLoopUnits false fuel = none) ∧
    solve_plugin_order_noclosure selfLoopUnits false =
      Except.error "Circular plugin dependency found!" := by
  constructor
  · intro fuel
    have hc : closureAux fuel (buildDepMap selfLoopUnits false)
        (enabledOf selfLoopUnits) [] = none := by
      cases fuel with
      | zero => rfl
      | succ f =>
          show closureAux f [("S", ["S"])] ["S"] ["S"] = none
          exact closureAux_selfloop f
    simp only [solve_plugin_order]
    rw [hc]
  · rfl

/-- Claim C9 (amended): whenever the reachability/closure pass
terminates, it is a no-op: the computed `needed_plugins` set has
exactly the enabled bundle names as members, so the restriction of
`plugin_map` and `dependency_map` removes no entry and the resolver
agrees with the closure-free resolver.  (On inputs whose graph is
cyclic the pass never terminates while the closure-free resolver
raises, so the two resolvers are not extensionally equal — see the
counterexample.) -/
theorem closure_pass_noop_of_terminating (plugins : List PluginUnit)
    (read_mode : Bool) (fuel : Nat) (needed : List String)
    (hc : closureAux fuel (buildDepMap plugins read_mode)
      (enabledOf plugins) [] = some needed) :
    (∀ x, x ∈ needed ↔ x ∈ enabledOf plugins) ∧
    solve_plugin_order plugins read_mode fuel =
      some (solve_plugin_order_noclosure plugins read_mode) :=
  ⟨needed_iff_enabled hc, solve_eq_noclosure_of_closure hc⟩

/-- Witness for C9 (amended) at `danglingUnits`, whose closure pass
terminates with `needed = ["A"]` at fuel `2`. -/
theorem closure_pass_noop_of_terminating_witness :
    (∀ x, x ∈ ["A"] ↔ x ∈ enabledOf danglingUnits) ∧
    solve_plugin_order danglingUnits false 2 =
      some (solve_plugin_order_noclosure danglingUnits false) :=
  closure_pass_noop_of_terminating danglingUnits false 2 ["A"] rfl

theorem forall2_alInsert {m1 m2 : List (String × PluginUnit)}
    (h : List.Forall₂ (fun e1 e2 => e1.1 = e2.1 ∧ (e1.2).uid = (e2.2).uid) m1 m2)
    {k : String} {u v : PluginUnit} (huv : u.uid = v.uid) :
    List.Forall₂ (fun e1 e2 => e1.1 = e2.1 ∧ (e1.2).uid = (e2.2).uid)
      (alInsert m1 k u) (alInsert m2 k v) := by
  induction h with
  | nil => exact List.Forall₂.cons ⟨rfl, huv⟩ List.Forall₂.nil
  | @cons a b l1 l2 hab hrest ih =>
      obtain ⟨a1, a2⟩ := a
      obtain ⟨b1, b2⟩ := b
      obtain ⟨hab1, hab2⟩ := hab
      simp only at hab1 hab2
      subst hab1
      by_cases hk : a1 = k
      · simp only [alInsert, if_pos hk]
        exact List.Forall₂.cons ⟨rfl, huv⟩ hrest
      · simp only [alInsert, if_neg hk]
        exact List.Forall₂.cons ⟨rfl, hab2⟩ ih

theorem forall2_pm_fold :
    ∀ {p1 p2 : List PluginUnit},
    List.Forall₂ (fun u v => u.mod.name = v.mod.name ∧ u.uid = v.uid) p1 p2 →
    ∀ {m1 m2 : List (String × PluginUnit)},
    List.Forall₂ (fun e1 e2 => e1.1 = e2.1 ∧ (e1.2).uid = (e2.2).uid) m1 m2 →
    List.Forall₂ (fun e1 e2 => e1.1 = e2.1 ∧ (e1.2).uid = (e2.2).uid)
      (p1.foldl (fun m u => alInsert m u.mod.name u) m1)
      (p2.foldl (fun m u => alInsert m u.mod.name u) m2) := by
  intro p1 p2 h
  induction h with
  | nil => intro m1 m2 hm; exact hm
  | cons hab hrest ih =>
      intro m1 m2 hm
      rw [List.foldl_cons, List.foldl_cons]
      refine ih ?_
      rw [hab.1]
      exact forall2_alInsert hm hab.2

theorem forall2_buildPluginMap {p1 p2 : List PluginUnit} {read_mode : Bool}
    (h : List.Forall₂ (fun u v => u.mod.name = v.mod.name ∧ u.uid = v.uid)
      p1 p2) :
    List.Forall₂ (fun e1 e2 => e1.1 = e2.1 ∧ (e1.2).uid = (e2.2).uid)
      (buildPluginMap p1 read_mode) (buildPluginMap p2 read_mode) := by
  unfold buildPluginMap seedMaps
  rw [seedMaps_foldl_fst_decomp, seedMaps_foldl_fst_decomp]
  exact forall2_pm_fold h List.Forall₂.nil

theorem forall2_filter_key {needed : List String}
    {m1 m2 : List (String × PluginUnit)}
    (h : List.Forall₂ (fun e1 e2 => e1.1 = e2.1 ∧ (e1.2).uid = (e2.2).uid)
      m1 m2) :
    List.Forall₂ (fun e1 e2 => e1.1 = e2.1 ∧ (e1.2).uid = (e2.2).uid)
      (m1.filter (fun p => decide (p.1 ∈ needed)))
      (m2.filter (fun p => decide (p.1 ∈ needed))) := by
  induction h with
  | nil => exact List.Forall₂.nil
  | @cons a b l1 l2 hab hrest ih =>
      rw [List.filter_cons, List.filter_cons, hab.1]
      by_cases hk : b.1 ∈ needed
      · rw [if_pos (by simpa using hk), if_pos (by simpa using hk)]
        exact List.Forall₂.cons hab ih
      · rw [if_neg (by simpa using hk), if_neg (by simpa using hk)]
        exact ih

theorem forall2_lookup {m1 m2 : List (String × PluginUnit)}
    (h : List.Forall₂ (fun e1 e2 => e1.1 = e2.1 ∧ (e1.2).uid = (e2.2).uid)
      m1 m2) (n : String) :
    Option.map PluginUnit.uid (alLookup m1 n) =
      Option.map PluginUnit.uid (alLookup m2 n) := by
  induction h with
  | nil => rfl
  | @cons a b l1 l2 hab hrest ih =>
      obtain ⟨a1, a2⟩ := a
      obtain ⟨b1, b2⟩ := b
      obtain ⟨hab1, hab2⟩ := hab
      simp only at hab1 hab2
      subst hab1
      by_cases hn : a1 = n
      · simp only [alLookup, if_pos hn]
        show some a2.uid = some b2.uid
        rw [hab2]
      · simp only [alLookup, if_neg hn]
        exact ih

theorem uid_getD_of_lookup_eq {m1 m2 : List (String × PluginUnit)}
    (h : ∀ n, Option.map PluginUnit.uid (alLookup m1 n) =
      Option.map PluginUnit.uid (alLookup m2 n)) (n : String) :
    ((alLookup m1 n).getD default).uid = ((alLookup m2 n).getD default).uid := by
  have hn := h n
  cases h1 : alLookup m1 n with
  | none =>
      cases h2 : alLookup m2 n with
      | none => rfl
      | some v => rw [h1, h2] at hn; simp at hn
  | some u =>
      cases h2 : alLookup m2 n with
      | none => rw [h1, h2] at hn; simp at hn
      | some v => rw [h1, h2] at hn; simpa using hn

theorem solve_uid_congr {p1 p2 : List PluginUnit} {read_mode : Bool}
    {fuel : Nat}
    (hen : enabledOf p1 = enabledOf p2)
    (hdm : buildDepMap p1 read_mode = buildDepMap p2 read_mode)
    (hpm : List.Forall₂ (fun e1 e2 => e1.1 = e2.1 ∧ (e1.2).uid = (e2.2).uid)
      (buildPluginMap p1 read_mode) (buildPluginMap p2 read_mode)) :
    Option.map (Except.map (List.map PluginUnit.uid))
      (solve_plugin_order p1 read_mode fuel) =
    Option.map (Except.map (List.map PluginUnit.uid))
      (solve_plugin_order p2 read_mode fuel) := by
  simp only [solve_plugin_order]
  rw [hdm, hen]
  cases hc : closureAux fuel (buildDepMap p2 read_mode) (enabledOf p2) [] with
  | none => rfl
  | some needed =>
      have hpm2 := @forall2_filter_key needed _ _ hpm
      have hlk := forall2_lookup hpm2
      dsimp only
      cases hk : kahnAux
          ((buildDepMap p2 read_mode).filter
            (fun p => decide (p.1 ∈ needed))).length
          ((buildDepMap p2 read_mode).filter
            (fun p => decide (p.1 ∈ needed))) with
      | error e => rfl
      | ok names =>
          have hmaps :
              (names.map (fun n =>
                (alLookup ((buildPluginMap p1 read_mode).filter
                  (fun p => decide (p.1 ∈ needed))) n).getD default)).map
                PluginUnit.uid =
              (names.map (fun n =>
                (alLookup ((buildPluginMap p2 read_mode).filter
                  (fun p => decide (p.1 ∈ needed))) n).getD default)).map
                PluginUnit.uid := by
            rw [List.map_map, List.map_map]
            exact List.map_congr_left (fun n _ => uid_getD_of_lookup_eq hlk n)
          exact congrArg (fun l => some (Except.ok l)) hmaps

theorem enabledOf_eq_of_forall2 :
    ∀ {p1 p2 : List PluginUnit},
    List.Forall₂ (fun u v => u.mod.name = v.mod.name) p1 p2 →
    enabledOf p1 = enabledOf p2 := by
  intro p1 p2 h
  induction h with
  | nil => rfl
  | cons hab hrest ih =>
      unfold enabledOf at ih ⊢
      rw [List.map_cons, List.map_cons, hab, ih]

theorem foldl_alInsert_congr (d1 d2 : PluginUnit → List String) :
    ∀ {p1 p2 : List PluginUnit},
    List.Forall₂ (fun u v => u.mod.name = v.mod.name ∧ d1 u = d2 v) p1 p2 →
    ∀ (m : List (String × List String)),
    p1.foldl (fun m u => alInsert m u.mod.name (d1 u)) m =
      p2.foldl (fun m u => alInsert m u.mod.name (d2 u)) m := by
  intro p1 p2 h
  induction h with
  | nil => intro m; rfl
  | cons hab hrest ih =>
      intro m
      rw [List.foldl_cons, List.foldl_cons, hab.1, hab.2]
      exact ih _

theorem addBefores_congr {read_mode : Bool} :
    ∀ {p1 p2 : List PluginUnit},
    List.Forall₂ (fun u v => u.mod.name = v.mod.name ∧
      beforeListOf u.mod read_mode = beforeListOf v.mod read_mode) p1 p2 →
    ∀ dm, addBefores p1 read_mode dm = addBefores p2 read_mode dm := by
  intro p1 p2 h
  unfold addBefores
  induction h with
  | nil => intro dm; rfl
  | cons hab hrest ih =>
      intro dm
      rw [List.foldl_cons, List.foldl_cons, hab.1, hab.2]
      exact ih _

theorem buildDepMap_eq_of_modeAgree {p1 p2 : List PluginUnit}
    {read_mode : Bool} (h : List.Forall₂ (ModeAgree read_mode) p1 p2) :
    buildDepMap p1 read_mode = buildDepMap p2 read_mode := by
  have hen : enabledOf p1 = enabledOf p2 :=
    enabledOf_eq_of_forall2 (h.imp (fun u v hma => hma.2.1))
  have hseed : (seedMaps p1 read_mode (enabledOf p1)).2 =
      (seedMaps p2 read_mode (enabledOf p2)).2 := by
    unfold seedMaps
    rw [seedMaps_foldl_snd_decomp, seedMaps_foldl_snd_decomp, hen]
    refine foldl_alInsert_congr
      (fun u => seedDeps read_mode (enabledOf p2) u.mod)
      (fun u => seedDeps read_mode (enabledOf p2) u.mod) ?_ []
    refine h.imp ?_
    intro u v hma
    refine ⟨hma.2.1, ?_⟩
    unfold seedDeps
    dsimp only
    rw [hma.2.2.1]
  unfold buildDepMap
  rw [hseed]
  exact addBefores_congr (h.imp (fun u v hma => ⟨hma.2.1, hma.2.2.2⟩)) _

/-- Claim C5: two-run noninterference between modes: whenever two unit
lists agree pointwise on unit identity, bundle name, and the two
ordering lists of the mode being resolved (`ModeAgree` — the other
mode's lists are unconstrained and may differ arbitrarily),
`solve_plugin_order` returns the same order for both, unit for unit
(compared by object identity).  With `read_mode = false` this is
exactly: changing `read_before`/`read_after` never affects the write
order; with `read_mode = true`, the converse. -/
theorem solve_plugin_order_mode_noninterference (p1 p2 : List PluginUnit)
    (read_mode : Bool) (fuel : Nat)
    (h : List.Forall₂ (ModeAgree read_mode) p1 p2) :
    Option.map (Except.map (List.map PluginUnit.uid))
      (solve_plugin_order p1 read_mode fuel) =
    Option.map (Except.map (List.map PluginUnit.uid))
      (solve_plugin_order p2 read_mode fuel) :=
  solve_uid_congr
    (enabledOf_eq_of_forall2 (h.imp (fun u v hma => hma.2.1)))
    (buildDepMap_eq_of_modeAgree h)
    (forall2_buildPluginMap (h.imp (fun u v hma => ⟨hma.2.1, hma.1⟩)))

/-- Witness for C5: `chainUnits` against `chainUnitsReadTweaked`, which
differs only in the read-mode lists, resolved in write mode. -/
theorem solve_plugin_order_mode_noninterference_witness :
    Option.map (Except.map (List.map PluginUnit.uid))
      (solve_plugin_order chainUnits false 3) =
    Option.map (Except.map (List.map PluginUnit.uid))
      (solve_plugin_order chainUnitsReadTweaked false 3) :=
  solve_plugin_order_mode_noninterference chainUnits chainUnitsReadTweaked
    false 3
    (List.Forall₂.cons ⟨rfl, rfl, rfl, rfl⟩
      (List.Forall₂.cons ⟨rfl, rfl, rfl, rfl⟩ List.Forall₂.nil))

theorem enabledOf_restrict (plugins : List PluginUnit) :
    enabledOf (restrictConstraints plugins) = enabledOf plugins := by
  unfold restrictConstraints enabledOf
  rw [List.map_map]
  rfl

theorem restrict_forall2 (en : List String)
    (P : PluginUnit → PluginUnit → Prop)
    (hP : ∀ u : PluginUnit, P (⟨u.uid, ⟨u.mod.name,
      u.mod.write_before.filter (fun s => decide (s ∈ en)),
      u.mod.write_after.filter (fun s => decide (s ∈ en)),
      u.mod.read_before.filter (fun s => decide (s ∈ en)),
      u.mod.read_after.filter (fun s => decide (s ∈ en))⟩⟩ : PluginUnit) u) :
    ∀ l : List PluginUnit,
    List.Forall₂ P
      (l.map (fun u => (⟨u.uid, ⟨u.mod.name,
        u.mod.write_before.filter (fun s => decide (s ∈ en)),
        u.mod.write_after.filter (fun s => decide (s ∈ en)),
        u.mod.read_before.filter (fun s => decide (s ∈ en)),
        u.mod.read_after.filter (fun s => decide (s ∈ en))⟩⟩ : PluginUnit)))
      l := by
  intro l
  induction l with
  | nil => exact List.Forall₂.nil
  | cons u t ih => exact List.Forall₂.cons (hP u) ih

theorem foldl_guardAdd_filter (en : List String) :
    ∀ (l acc : List String),
    (l.filter (fun s => decide (s ∈ en))).foldl
      (fun acc other => if other ∈ en then setAdd acc other else acc) acc =
    l.foldl (fun acc other => if other ∈ en then setAdd acc other else acc)
      acc := by
  intro l
  induction l with
  | nil => intro acc; rfl
  | cons o t ih =>
      intro acc
      by_cases ho : o ∈ en
      · rw [List.filter_cons, if_pos (by simpa using ho), List.foldl_cons,
          List.foldl_cons, if_pos ho]
        exact ih _
      · rw [List.filter_cons, if_neg (by simpa using ho), List.foldl_cons,
          if_neg ho]
        exact ih _

theorem beforeStep_not_enabled {nm : String}
    {dm : List (String × List String)} {en : List String}
    (hkeys : ∀ k, k ∈ keysOf dm ↔ k ∈ en) {b : String} (hb : b ∉ en) :
    beforeStep nm dm b = dm := by
  unfold beforeStep
  cases hl : alLookup dm b with
  | none => rfl
  | some s => exact absurd ((hkeys b).mp (mem_keys_of_lookup_some hl)) hb

theorem foldl_beforeStep_filter (nm : String) (en : List String) :
    ∀ (l : List String) (dm : List (String × List String)),
    (∀ k, k ∈ keysOf dm ↔ k ∈ en) →
    (l.filter (fun s => decide (s ∈ en))).foldl (beforeStep nm) dm =
    l.foldl (beforeStep nm) dm := by
  intro l
  induction l with
  | nil => intro dm h; rfl
  | cons b t ih =>
      intro dm h
      by_cases hb : b ∈ en
      · rw [List.filter_cons, if_pos (by simpa using hb), List.foldl_cons,
          List.foldl_cons]
        refine ih _ ?_
        intro k
        rw [← h k, keysOf_beforeStep]
      · rw [List.filter_cons, if_neg (by simpa using hb), List.foldl_cons,
          beforeStep_not_enabled h hb]
        exact ih _ h

theorem addBefores_filter_congr {read_mode : Bool} {en : List String} :
    ∀ {p1 p2 : List PluginUnit},
    List.Forall₂ (fun u v => u.mod.name = v.mod.name ∧
      beforeListOf u.mod read_mode =
        (beforeListOf v.mod read_mode).filter (fun s => decide (s ∈ en)))
      p1 p2 →
    ∀ dm, (∀ k, k ∈ keysOf dm ↔ k ∈ en) →
    addBefores p1 read_mode dm = addBefores p2 read_mode dm := by
  intro p1 p2 h
  unfold addBefores
  induction h with
  | nil => intro dm hk; rfl
  | cons hab hrest ih =>
      intro dm hk
      rw [List.foldl_cons, List.foldl_cons, hab.1, hab.2,
        foldl_beforeStep_filter _ en _ dm hk]
      refine ih _ ?_
      intro k
      rw [← hk k, keysOf_foldl_beforeStep]

theorem buildDepMap_restrict (plugins : List PluginUnit) (read_mode : Bool) :
    buildDepMap (restrictConstraints plugins) read_mode =
      buildDepMap plugins read_mode := by
  have hen := enabledOf_restrict plugins
  have hseed : (seedMaps (restrictConstraints plugins) read_mode
      (enabledOf (restrictConstraints plugins))).2 =
      (seedMaps plugins read_mode (enabledOf plugins)).2 := by
    unfold seedMaps
    rw [seedMaps_foldl_snd_decomp, seedMaps_foldl_snd_decomp, hen]
    refine foldl_alInsert_congr
      (fun u => seedDeps read_mode (enabledOf plugins) u.mod)
      (fun u => seedDeps read_mode (enabledOf plugins) u.mod) ?_ []
    unfold restrictConstraints
    refine restrict_forall2 (enabledOf plugins) _ ?_ plugins
    intro u
    refine ⟨rfl, ?_⟩
    unfold seedDeps
    dsimp only
    cases read_mode
    · exact foldl_guardAdd_filter (enabledOf plugins) u.mod.write_after []
    · exact foldl_guardAdd_filter (enabledOf plugins) u.mod.read_after []
  unfold buildDepMap
  rw [hseed]
  refine @addBefores_filter_congr read_mode (enabledOf plugins) _ _ ?_ _ ?_
  · unfold restrictConstraints
    refine restrict_forall2 (enabledOf plugins) _ ?_ plugins
    intro u
    refine ⟨rfl, ?_⟩
    cases read_mode <;> rfl
  · intro k
    unfold seedMaps
    rw [seedMaps_foldl_keys2]
    simp [keysOf]

/-- Claim C4: an ordering constraint naming a bundle outside the
enabled set is silently inert: filtering every ordering list of every
bundle down to the enabled names changes nothing in the resolver's
result (unit for unit, compared by identity); and in particular the
single-bundle input `danglingUnits` (`A.write_after=["B"]` with `B` not
enabled) resolves in write mode to exactly the one unit of `A`. -/
theorem solve_plugin_order_ignores_dangling (plugins : List PluginUnit)
    (read_mode : Bool) (fuel : Nat) :
    (Option.map (Except.map (List.map PluginUnit.uid))
        (solve_plugin_order (restrictConstraints plugins) read_mode fuel) =
      Option.map (Except.map (List.map PluginUnit.uid))
        (solve_plugin_order plugins read_mode fuel)) ∧
    solve_plugin_order danglingUnits false 2 =
      some (Except.ok [⟨1, ⟨"A", [], ["B"], [], []⟩⟩]) := by
  refine ⟨?_, rfl⟩
  refine solve_uid_congr (enabledOf_restrict plugins)
    (buildDepMap_restrict plugins read_mode)
    (forall2_buildPluginMap ?_)
  unfold restrictConstraints
  exact restrict_forall2 (enabledOf plugins) _ (fun u => ⟨rfl, rfl⟩) plugins

end ExdirPlugin
